import Mathlib

/-!
Verification development for the C-finite sequence module
(`src/sage/rings/cfinite_sequence.py`).

Polynomials over `ℚ` are embedded as ascending coefficient lists
(`p.getD i 0` is the coefficient of `x^i`).  Every stored polynomial is
kept in canonical trimmed form (no trailing zero coefficients), matching
the canonical representation used by the source's polynomial ring.
-/

namespace CFin

/-! ### Kernel-computable rational arithmetic

The ambient `Rat` field operations are irreducible to the kernel, so the
executable layer uses these `mkRat`-based equivalents; the `_eq` bridges
identify them with the field operations for all algebraic reasoning. -/

/-- Rational addition. -/
def qAdd (a b : ℚ) : ℚ := mkRat (a.num * b.den + b.num * a.den) (a.den * b.den)

/-- Rational multiplication. -/
def qMul (a b : ℚ) : ℚ := mkRat (a.num * b.num) (a.den * b.den)

/-- Rational negation. -/
def qNeg (a : ℚ) : ℚ := mkRat (-a.num) a.den

/-- Rational subtraction. -/
def qSub (a b : ℚ) : ℚ := qAdd a (qNeg b)

/-- Rational inverse (0 for 0). -/
def qInv (a : ℚ) : ℚ :=
  if 0 ≤ a.num then mkRat (a.den : ℤ) a.num.toNat
  else mkRat (-(a.den : ℤ)) a.num.natAbs

/-- Rational division. -/
def qDiv (a b : ℚ) : ℚ := qMul a (qInv b)

/-- Sum of a list of rationals. -/
def qSum (l : List ℚ) : ℚ := l.foldr qAdd 0

theorem qAdd_eq (a b : ℚ) : qAdd a b = a + b := by
  rw [qAdd, Rat.mkRat_eq_div]
  have hda : ((a.den : ℚ)) ≠ 0 := by exact_mod_cast a.den_nz
  have hdb : ((b.den : ℚ)) ≠ 0 := by exact_mod_cast b.den_nz
  rw [div_eq_iff (by push_cast; exact mul_ne_zero hda hdb)]
  push_cast
  have ha : a * (a.den : ℚ) = a.num := (eq_div_iff hda).mp (Rat.num_div_den a).symm
  have hb : b * (b.den : ℚ) = b.num := (eq_div_iff hdb).mp (Rat.num_div_den b).symm
  rw [← ha, ← hb]
  ring

theorem qMul_eq (a b : ℚ) : qMul a b = a * b := by
  rw [qMul, Rat.mkRat_eq_div]
  have hda : ((a.den : ℚ)) ≠ 0 := by exact_mod_cast a.den_nz
  have hdb : ((b.den : ℚ)) ≠ 0 := by exact_mod_cast b.den_nz
  rw [div_eq_iff (by push_cast; exact mul_ne_zero hda hdb)]
  push_cast
  have ha : a * (a.den : ℚ) = a.num := (eq_div_iff hda).mp (Rat.num_div_den a).symm
  have hb : b * (b.den : ℚ) = b.num := (eq_div_iff hdb).mp (Rat.num_div_den b).symm
  rw [← ha, ← hb]
  ring

theorem qNeg_eq (a : ℚ) : qNeg a = -a := by
  rw [qNeg, Rat.mkRat_eq_div]
  have hda : ((a.den : ℚ)) ≠ 0 := by exact_mod_cast a.den_nz
  rw [div_eq_iff hda]
  push_cast
  have ha : a * (a.den : ℚ) = a.num := (eq_div_iff hda).mp (Rat.num_div_den a).symm
  rw [← ha]
  ring

theorem qSub_eq (a b : ℚ) : qSub a b = a - b := by
  rw [qSub, qAdd_eq, qNeg_eq, sub_eq_add_neg]

theorem qInv_eq (a : ℚ) : qInv a = a⁻¹ := by
  rw [qInv]
  have hda : ((a.den : ℚ)) ≠ 0 := by exact_mod_cast a.den_nz
  by_cases h0 : a.num = 0
  · have haz : a = 0 := by
      rwa [Rat.num_eq_zero] at h0
    subst haz
    rw [if_pos (by decide), inv_zero]
    decide
  · have hanum : (a.num : ℚ) ≠ 0 := by exact_mod_cast h0
    have hinv : a⁻¹ = (a.den : ℚ) / (a.num : ℚ) := by
      conv_lhs => rw [← Rat.num_div_den a]
      rw [inv_div]
    by_cases hp : 0 ≤ a.num
    · rw [if_pos hp, Rat.mkRat_eq_div, hinv]
      congr 1
      exact_mod_cast Int.toNat_of_nonneg hp
    · rw [if_neg hp, Rat.mkRat_eq_div, hinv]
      have hltq : ((a.num : ℚ)) < 0 := by
        exact_mod_cast (by omega : a.num < 0)
      have h4 : ((a.num.natAbs : ℕ) : ℚ) = -(a.num : ℚ) := by
        rw [Int.cast_natAbs]
        push_cast
        exact abs_of_neg hltq
      rw [h4]
      push_cast
      rw [neg_div_neg_eq]

theorem qDiv_eq (a b : ℚ) : qDiv a b = a / b := by
  rw [qDiv, qMul_eq, qInv_eq, div_eq_mul_inv]

theorem qSum_eq (l : List ℚ) : qSum l = l.sum := by
  induction l with
  | nil => rfl
  | cons q t ih =>
    show qAdd q (qSum t) = _
    rw [qAdd_eq, ih, List.sum_cons]

/-- Remove trailing zero coefficients, producing the canonical form of a
coefficient list. -/
def trim : List ℚ → List ℚ
  | [] => []
  | q :: t =>
    match trim t with
    | [] => if q = 0 then [] else [q]
    | r :: u => q :: r :: u

/-- Coefficient of `x^i` in a coefficient list. -/
def coeffL (p : List ℚ) (i : ℕ) : ℚ := p.getD i 0

/-- Coefficient at an integer power: zero for negative powers (the source's
polynomial indexing returns 0 outside the support). -/
def coeffZ (p : List ℚ) (z : ℤ) : ℚ := if z < 0 then 0 else coeffL p z.toNat

/-- Pointwise sum keeping the longer tail. -/
def addRaw : List ℚ → List ℚ → List ℚ
  | [], v => v
  | u, [] => u
  | q :: u, r :: v => qAdd q r :: addRaw u v

/-- Polynomial addition (canonical output). -/
def polyAdd (u v : List ℚ) : List ℚ := trim (addRaw u v)

/-- Scalar multiple (canonical output). -/
def polySmul (c : ℚ) (u : List ℚ) : List ℚ := trim (u.map (fun q => qMul c q))

/-- Polynomial negation. -/
def polyNeg (u : List ℚ) : List ℚ := polySmul (-1) u

/-- Polynomial subtraction. -/
def polySub (u v : List ℚ) : List ℚ := polyAdd u (v.map (fun q => qNeg q))

/-- Raw convolution product. -/
def mulRaw : List ℚ → List ℚ → List ℚ
  | [], _ => []
  | q :: u, v => addRaw (v.map (fun r => qMul q r)) ((0:ℚ) :: mulRaw u v)

/-- Polynomial multiplication (canonical output). -/
def polyMul (u v : List ℚ) : List ℚ := trim (mulRaw u v)

/-- Multiplication by `x^k` (canonical output). -/
def shiftUp (k : ℕ) (u : List ℚ) : List ℚ := trim (List.replicate k 0 ++ u)

/-- Exact division by `x^k` (drops the `k` lowest coefficients). -/
def shiftDown (k : ℕ) (u : List ℚ) : List ℚ := u.drop k

/-- Constant coefficient. -/
def constCoeff (u : List ℚ) : ℚ := coeffL u 0

/-- Leading coefficient of a trimmed list (0 for the zero polynomial). -/
def leadC (u : List ℚ) : ℚ := coeffL u (u.length - 1)

/-- Valuation: index of the lowest nonzero coefficient (junk value 0 on the
zero polynomial; the zero case is always handled separately, as in the
source where the valuation of 0 is plus infinity). -/
def polyVal : List ℚ → ℕ
  | [] => 0
  | q :: t => if q = 0 then polyVal t + 1 else 0

/-- Truncation `mod x^k` (canonical output). -/
def polyTrunc (k : ℕ) (u : List ℚ) : List ℚ := trim (u.take k)

/-- One step of polynomial long division, with fuel.  Returns the canonical
quotient and remainder of `a` by `b`; division by zero yields `([], trim a)`
(the source raises there, and no reachable call divides by zero). -/
def divModF : ℕ → List ℚ → List ℚ → List ℚ × List ℚ
  | 0, a, _ => ([], trim a)
  | fuel + 1, a, b =>
    let a1 := trim a
    let b1 := trim b
    if b1 = [] then ([], a1)
    else if a1.length < b1.length then ([], a1)
    else
      let k := a1.length - b1.length
      let q0 := qDiv (leadC a1) (leadC b1)
      let a2 := polySub a1 (shiftUp k (polySmul q0 b1))
      let p := divModF fuel a2 b1
      (polyAdd p.1 (shiftUp k [q0]), p.2)

/-- Polynomial quotient and remainder (`quo_rem` in the source). -/
def polyDivMod (a b : List ℚ) : List ℚ × List ℚ := divModF (trim a).length a b

/-- Polynomial quotient. -/
def polyQuo (a b : List ℚ) : List ℚ := (polyDivMod a b).1

/-- Polynomial remainder. -/
def polyRem (a b : List ℚ) : List ℚ := (polyDivMod a b).2

/-- Scale a nonzero canonical list to be monic (the zero list stays zero). -/
def monicize (u : List ℚ) : List ℚ := polySmul (qInv (leadC u)) u

/-- Euclidean gcd with fuel, normalized monic as in the source's polynomial
gcd over `ℚ`. -/
def gcdF : ℕ → List ℚ → List ℚ → List ℚ
  | 0, a, _ => monicize (trim a)
  | fuel + 1, a, b =>
    let b1 := trim b
    if b1 = [] then monicize (trim a)
    else gcdF fuel b1 (polyRem a b1)

/-- Monic polynomial gcd (`gcd` in the source). -/
def polyGcd (a b : List ℚ) : List ℚ := gcdF ((trim b).length + 1) a b

/-! ### Power and Laurent series expansion

`psCoeffs p q n` lists the first `n` coefficients of the power series
`p(x)/q(x)`, assuming `q` has a nonzero constant coefficient. -/

/-- First `n` coefficients of the power series `p/q` (requires `q₀ ≠ 0`). -/
def psCoeffs (p q : List ℚ) : ℕ → List ℚ
  | 0 => []
  | n + 1 =>
    let cs := psCoeffs p q n
    cs ++ [qDiv (qSub (coeffL p n) (qSum ((List.range n).map
      (fun j => qMul (coeffL q (j + 1)) (coeffL cs (n - 1 - j)))))) (coeffL q 0)]

/-- Valuation of the rational function `n/d` as an integer (junk on zero). -/
def fracValZ (n d : List ℚ) : ℤ :=
  (polyVal (trim n) : ℤ) - (polyVal (trim d) : ℤ)

/-- Coefficient of `x^z` in the Laurent expansion of `n/d` (`d ≠ 0`). -/
def fracCoeffZ (n d : List ℚ) (z : ℤ) : ℚ :=
  let n1 := trim n
  let d1 := trim d
  if n1 = [] then 0
  else if z < fracValZ n d then 0
  else coeffL (psCoeffs (shiftDown (polyVal n1) n1) (shiftDown (polyVal d1) d1)
    ((z - fracValZ n d).toNat + 1)) (z - fracValZ n d).toNat

/-- Model of `LaurentSeriesRing(QQ, 'x', default_prec=cnt)(n/d).list()`:
the `cnt` coefficients of `n/d` starting at its valuation (a Laurent series
list starts at the valuation of the series), with trailing zeros dropped as
the underlying power-series polynomial drops them. -/
def sageLList (n d : List ℚ) (cnt : ℕ) : List ℚ :=
  if trim n = [] then []
  else trim ((List.range cnt).map (fun i => fracCoeffZ n d (fracValZ n d + i)))

/-! ### Matrices as row lists -/

/-- Dot product (truncating at the shorter list). -/
def vdot (u v : List ℚ) : ℚ := qSum (List.zipWith (fun q r => qMul q r) u v)

/-- Row `r` times matrix `B`: the linear combination of the rows of `B`
with the entries of `r` as weights. -/
def rowLin (r : List ℚ) (B : List (List ℚ)) : List ℚ :=
  (List.zipWith (fun q row => row.map (fun z => qMul q z)) r B).foldr addRaw []

/-- Matrix product. -/
def matMulM (A B : List (List ℚ)) : List (List ℚ) := A.map (fun r => rowLin r B)

/-- Matrix-vector product. -/
def matVecM (A : List (List ℚ)) (v : List ℚ) : List ℚ := A.map (fun r => vdot r v)

/-- Identity matrix of size `d`. -/
def matIdM (d : ℕ) : List (List ℚ) :=
  (List.range d).map (fun i => (List.range d).map (fun j => if i = j then 1 else 0))

/-- Matrix power (`M ** n` in the source). -/
def matPowM (A : List (List ℚ)) (d : ℕ) : ℕ → List (List ℚ)
  | 0 => matIdM d
  | n + 1 => matMulM A (matPowM A d n)

/-- The companion (transition) matrix built at lines 491–498 of the source:
first row the recurrence coefficients, below it the shift identity block. -/
def companionM (c : List ℚ) : List (List ℚ) :=
  c :: (List.range (c.length - 1)).map
    (fun i => (List.range c.length).map (fun j => if j = i then 1 else 0))

/-! ### The canonical sequence record -/

/-- Model of the stored offset: an integer, or plus infinity (the valuation
of the zero polynomial, stored by the source for the zero sequence). -/
inductive ZInf where
  | top : ZInf
  | int : ℤ → ZInf
deriving DecidableEq

/-- The canonical state of a `CFiniteSequence`: the stored numerator and
denominator (`self.numerator()`, `self.denominator()`), and the attributes
`_off`, `_deg`, `_c`, `_a`, `_aa`. -/
structure CFS where
  num : List ℚ
  den : List ℚ
  off : ZInf
  deg : ℕ
  c : List ℚ
  a : List ℚ
  aa : List ℚ
deriving DecidableEq

/-- Reduction of a fraction by the (monic) gcd, skipped when the gcd is a
unit, as in `FractionFieldElement.reduce`. -/
def gcdReduce (n d : List ℚ) : List ℚ × List ℚ :=
  let g := polyGcd n d
  if g = [1] then (n, d) else (polyQuo n g, polyQuo d g)

/-- Normalization of a unit (nonzero constant) denominator to one, as in
`FractionFieldElement.reduce`. -/
def unitNorm (p : List ℚ × List ℚ) : List ℚ × List ℚ :=
  if p.2.length = 1 then (polySmul (qInv (constCoeff p.2)) p.1, [1]) else p

/-- Model of `FractionFieldElement` construction over `QQ['x']`: reduce by
the (monic) gcd, then normalize a unit denominator to one.  Every fraction
reaching `CFiniteSequence.__init__` has been built this way. -/
def sageReduce (n0 d0 : List ℚ) : List ℚ × List ℚ :=
  unitNorm (gcdReduce (trim n0) (trim d0))

/-- The polynomial branch of the canonicalizer (lines 222–229): recurrence
degree 0, offset the valuation (plus infinity for the zero polynomial,
as the source stores), initial terms the shifted coefficient list
(`[0]` for the zero polynomial). -/
def polyBranch (q : List ℚ) : CFS :=
  if q = [] then ⟨[], [1], ZInf.top, 0, [], [0], []⟩
  else ⟨q, [1], ZInf.int (polyVal q), 0, [], shiftDown (polyVal q) q, []⟩

/-- The offset-extraction step of the canonicalizer (lines 188–194): absorb
a power of `x` dividing the numerator (offset `≥ 0`) or the denominator
(offset `< 0`). -/
def fracShift (p : List ℚ × List ℚ) : ℤ × List ℚ × List ℚ :=
  if constCoeff p.1 = 0 then
    ((polyVal p.1 : ℤ), shiftDown (polyVal p.1) p.1, p.2)
  else if constCoeff p.2 = 0 then
    (-(polyVal p.2 : ℤ), p.1, shiftDown (polyVal p.2) p.2)
  else (0, p.1, p.2)

/-- The normalization step of the canonicalizer (lines 195–200): divide both
polynomials by the denominator's constant coefficient, then by their gcd. -/
def fracNorm (t : ℤ × List ℚ × List ℚ) : ℤ × List ℚ × List ℚ :=
  let f := constCoeff t.2.2
  let n1 := polySmul (qInv f) t.2.1
  let d1 := polySmul (qInv f) t.2.2
  let g := polyGcd n1 d1
  (t.1, polyQuo n1 g, polyQuo d1 g)

/-- The assembly step of the canonicalizer (lines 201–220): recurrence
degree and coefficients, re-applied offset shift, and the two stored
series windows. -/
def fracPack (t : ℤ × List ℚ × List ℚ) : CFS :=
  let off := t.1
  let n2 := t.2.1
  let d2 := t.2.2
  let deg := d2.length - 1
  let c := (List.range deg).map (fun i => qNeg (coeffL d2 (i + 1)))
  let n3 := if 0 ≤ off then shiftUp off.toNat n2 else n2
  let d3 := if 0 ≤ off then d2 else shiftUp (-off).toNat d2
  let alen := max deg n3.length
  let rem := polyRem n3 d3
  let aRaw := if d3 = [1] then n3 else sageLList n3 d3 alen
  let a := aRaw ++ List.replicate (alen - aRaw.length) 0
  let aa := if d3 = [1] then [] else (sageLList rem d3 alen).take deg
  ⟨n3, d3, ZInf.int off, deg, c, a, aa⟩

/-- The canonicalizer, `CFiniteSequence.__init__` (lines 158–231): given the
o.g.f. `num/den`, produce the stored canonical state.  The polynomial branch
(lines 222–229) is taken exactly when the reduced denominator is one. -/
def mkCF (num den : List ℚ) : CFS :=
  let p := sageReduce num den
  if p.2 = [1] then polyBranch p.1
  else fracPack (fracNorm (fracShift p))

/-- `CFiniteSequence.from_recurrence` (lines 233–288). -/
def fromRecurrence (coefficients values : List ℚ) : CFS :=
  let deg := coefficients.length
  let co := coefficients.reverse ++ List.replicate (values.length - deg) 0
  let den := polyAdd [-1]
    ((List.range deg).foldr (fun n acc => polyAdd (shiftUp (n + 1) [coeffL co n]) acc) [])
  let num := polyAdd [qNeg (coeffL values 0)]
    (((List.range values.length).drop 1).foldr (fun n acc =>
      polyAdd (shiftUp n [qAdd (qNeg (coeffL values n))
        (qSum ((List.range n).map
          (fun k => qMul (coeffL values k) (coeffL co (n - 1 - k)))))]) acc) [])
  mkCF num den

/-- The seed vector of `__getitem__` (lines 494–497): the first `deg`
entries of `_a` (when the quotient is zero) or of `_aa`, reversed. -/
def seedVec (s : CFS) (quo : List ℚ) : List ℚ :=
  ((if quo = [] then s.a else s.aa).take s.deg).reverse

/-- The seed vector as the SPEC's words describe it: the LAST `degree`
entries of the initial terms (or of the remainder terms), reversed.  The
source instead takes the first `degree` entries; `seedVecSpec` exists to be
compared with `seedVec`. -/
def seedVecSpec (s : CFS) (quo : List ℚ) : List ℚ :=
  (let src := if quo = [] then s.a else s.aa
   src.drop (src.length - s.deg)).reverse

/-- `CFiniteSequence.__getitem__` on an integer key (lines 480–500).
When `_off` is plus infinity (zero sequence) the window test fails and the
degree-0 branch returns 0. -/
def getItemInt (s : CFS) (k : ℤ) : ℚ :=
  match s.off with
  | ZInf.top => 0
  | ZInf.int o =>
    if o ≤ k ∧ k < o + (s.a.length : ℤ) then coeffL s.a (k - o).toNat
    else if s.deg = 0 then 0
    else
      let qr := polyDivMod s.num s.den
      let wp := coeffZ qr.1 (k - o)
      if k < o then wp
      else qAdd wp (coeffL
        (matVecM (matPowM (companionM s.c) s.deg (k - o).toNat) (seedVec s qr.1))
        (s.deg - 1))

/-! ### Python slices -/

/-- CPython clamping of one slice endpoint against a length. -/
def pyClamp (v len : ℤ) (stepNeg : Bool) : ℤ :=
  if v < 0 then
    (if v + len < 0 then (if stepNeg then -1 else 0) else v + len)
  else if len ≤ v then (if stepNeg then len - 1 else len) else v

/-- `range(b, e, st)` as a list of integers (`st ≠ 0`). -/
def pyRange (b e st : ℤ) : List ℤ :=
  let cnt : ℕ :=
    if 0 < st then ((e - b + st - 1).ediv st).toNat
    else ((b - e - st - 1).ediv (-st)).toNat
  (List.range cnt).map (fun i => b + st * i)

/-- `CFiniteSequence.__getitem__` on a slice (lines 477–479): clamp the
endpoints against `max(start, stop) + 1` as `slice.indices` does, then map
the integer lookup over the resulting range. -/
def getItemSlice (s : CFS) (start stop step : ℤ) : List ℚ :=
  let m := max start stop
  let b := pyClamp start (m + 1) (decide (step < 0))
  let e := pyClamp stop (m + 1) (decide (step < 0))
  (pyRange b e step).map (getItemInt s)

/-- `CFiniteSequence.__eq__` (lines 407–423): equality of the o.g.f.s as
fraction-field elements, i.e. cross-multiplied equality of the stored
numerator/denominator pairs. -/
def ogfEq (s t : CFS) : Prop :=
  polyMul s.num t.den = polyMul t.num s.den

instance (s t : CFS) : Decidable (ogfEq s t) := by
  unfold ogfEq
  infer_instance

/-! ### Guessing strategies (`CFiniteSequence.guess`, lines 597–697) -/

/-- State of the iterative Berlekamp–Massey computation. -/
structure BMSt where
  cp : List ℚ
  bp : List ℚ
  ln : ℕ
  mg : ℕ
  bd : ℚ

/-- One Berlekamp–Massey update step on sample index `n`. -/
def bmStep (s : List ℚ) (st : BMSt) (n : ℕ) : BMSt :=
  let dl := qAdd (coeffL s n)
    (qSum ((List.range st.ln).map
      (fun i => qMul (coeffL st.cp (i + 1)) (coeffL s (n - 1 - i)))))
  if dl = 0 then ⟨st.cp, st.bp, st.ln, st.mg + 1, st.bd⟩
  else
    let cp2 := polySub st.cp (shiftUp st.mg (polySmul (qDiv dl st.bd) st.bp))
    if 2 * st.ln ≤ n then ⟨cp2, st.cp, n + 1 - st.ln, 1, dl⟩
    else ⟨cp2, st.bp, st.ln, st.mg + 1, st.bd⟩

/-- Modelled from the spec: the external routine
`sage.matrix.berlekamp_massey.berlekamp_massey` (not part of this
repository) computes the minimal linear-feedback polynomial of the sample
run; this is the standard Berlekamp–Massey iteration, returning the monic
minimal polynomial as an ascending coefficient list. -/
def bmMinPoly (s : List ℚ) : List ℚ :=
  let st := (List.range s.length).foldl (bmStep s) ⟨[1], [1], 0, 1, 1⟩
  (st.cp ++ List.replicate (st.ln + 1 - st.cp.length) 0).reverse

/-- The result of one `guess` call: a raised error, the sentinel `0`, or a
constructed sequence. -/
inductive GRes where
  | raised : GRes
  | sentinel : GRes
  | found : CFS → GRes
deriving DecidableEq

/-- `guess(sequence, algorithm='bm')` (lines 641–652): drop the last sample
when the count is odd, run Berlekamp–Massey, reverse the minimal polynomial
into the denominator and truncate `sequence(x)·den` to the numerator. -/
def guessBm (samples : List ℚ) : GRes :=
  if samples.length < 2 then GRes.raised
  else
    let seq := if samples.length % 2 = 1 then samples.dropLast else samples
    let l := seq.length - 1
    let den := trim (bmMinPoly seq).reverse
    let num := polyTrunc l (polyMul (trim seq) den)
    GRes.found (mkCF num den)

/-- `guess(sequence, algorithm='pari')` (lines 653–673): the sample-length
check is in this repository; the reconstruction itself is delegated to the
external `Gp` lattice-reduction session (out of scope, modelled from the
spec as an abstract oracle), so only the error behaviour is represented. -/
def guessPariCheck (samples : List ℚ) : GRes :=
  if samples.length < 6 then GRes.raised else GRes.sentinel

/-! RREF and kernels, modelling the external matrix `kernel()` call.  The
reduced row echelon form of a matrix is unique, and the source's
`A.kernel()` returns the left kernel with its echelonized (RREF) basis, so
any correct elimination reproduces the same basis rows. -/

/-- Subtract `c` times `src` from `dst` (vectors of equal length). -/
def rowSub (dst : List ℚ) (c : ℚ) (src : List ℚ) : List ℚ :=
  List.zipWith (fun a b => qSub a (qMul c b)) dst src

/-- Eliminate column `j`: pick the first row of the active block with a
nonzero entry in column `j` as pivot, normalize it and clear the column. -/
def elimCol (st : List (List ℚ) × List (List ℚ)) (j : ℕ) :
    List (List ℚ) × List (List ℚ) :=
  match st.2.findIdx? (fun r => decide (coeffL r j ≠ 0)) with
  | Option.none => st
  | Option.some i =>
    let piv := st.2.getD i []
    let pv := piv.map (fun q => qMul (qInv (coeffL piv j)) q)
    let rest := (st.2.eraseIdx i).map (fun r => rowSub r (coeffL r j) pv)
    let done := st.1.map (fun r => rowSub r (coeffL r j) pv)
    (done ++ [pv], rest)

/-- Nonzero rows of the reduced row echelon form, pivots left to right. -/
def rrefRows (rows : List (List ℚ)) (nc : ℕ) : List (List ℚ) :=
  ((List.range nc).foldl elimCol ([], rows)).1

/-- Transpose of a rectangular row list with `nc` columns. -/
def transposeM (rows : List (List ℚ)) (nc : ℕ) : List (List ℚ) :=
  (List.range nc).map (fun j => rows.map (fun r => coeffL r j))

/-- Echelonized basis of the right kernel of a matrix with `nc` columns:
free-column basis vectors read off the RREF, then echelonized again (the
second pass makes the basis matrix itself RREF, as the external kernel
routine returns it). -/
def rightKernelBasis (rows : List (List ℚ)) (nc : ℕ) : List (List ℚ) :=
  let R := rrefRows rows nc
  let pivots := R.map (fun r => r.findIdx (fun q => decide (q ≠ 0)))
  let free := (List.range nc).filter (fun j => ! pivots.contains j)
  let base := free.map (fun j => (List.range nc).map (fun i =>
    if i = j then 1 else
      match pivots.findIdx? (fun p => decide (p = i)) with
      | Option.none => 0
      | Option.some r => qNeg (coeffL (R.getD r []) j)))
  rrefRows base nc

/-- Echelonized basis of the left kernel of `A` (`A.kernel()` in the
source returns the left kernel). -/
def leftKernelBasis (A : List (List ℚ)) : List (List ℚ) :=
  rightKernelBasis (transposeM A (A.getD 0 []).length) A.length

/-- `numpy.trim_zeros` with the default mode: strip zeros from both ends. -/
def trimZerosFB (u : List ℚ) : List ℚ :=
  trim (u.dropWhile (fun q => decide (q = 0)))

/-- `guess(sequence)` with the default kernel strategy (lines 674–697):
Hankel-style sample matrix, left kernel, last echelonized basis vector
reversed and zero-stripped as denominator, truncated product as numerator,
then the power-series re-expansion check.  The expansion
`S(num/den).list()` is the coefficient list of the reduced fraction to
absolute precision `(l - offset) + valuation(num)` (the series inverse of
the denominator carries relative precision `l - offset` and the exact
numerator shifts it), with trailing zeros dropped; a unit reduced
denominator makes the conversion exact. -/
def guessSage (samples : List ℚ) : GRes :=
  let l := samples.length
  if l < 6 then GRes.raised
  else
    let hl := (l + 1) / 2
    let A := (List.range hl).map (fun k => (samples.drop k).take hl)
    let K := leftKernelBasis A
    if K = [] then GRes.sentinel
    else
      let den := trimZerosFB (K.getD (K.length - 1) []).reverse
      if den = [1] then GRes.sentinel
      else
        let offset := samples.findIdx (fun q => decide (q ≠ 0))
        let num := polyTrunc (l / 2 + 1) (polyMul (trim samples) den)
        if num = [] then GRes.sentinel
        else
          let red := sageReduce num den
          let expansion :=
            if red.2 = [1] then red.1
            else trim ((List.range ((l - offset) + polyVal red.1)).map
              (fun i => fracCoeffZ red.1 red.2 (i : ℤ)))
          if samples ≠ expansion then GRes.sentinel
          else GRes.found (mkCF num den)

/-! ## Semantics: the bridge to `Polynomial ℚ`

`toP` interprets a coefficient list as a Mathlib polynomial; all algebraic
reasoning about the executable operations goes through it. -/

open Polynomial in
/-- Interpretation of a coefficient list as a polynomial. -/
noncomputable def toP : List ℚ → Polynomial ℚ
  | [] => 0
  | q :: u => Polynomial.C q + Polynomial.X * toP u

theorem coeffL_nil (n : ℕ) : coeffL [] n = 0 := rfl

theorem coeffL_cons_zero (q : ℚ) (u : List ℚ) : coeffL (q :: u) 0 = q := rfl

theorem coeffL_cons_succ (q : ℚ) (u : List ℚ) (n : ℕ) :
    coeffL (q :: u) (n + 1) = coeffL u n := rfl

theorem coeffL_of_len_le (u : List ℚ) (n : ℕ) (h : u.length ≤ n) :
    coeffL u n = 0 := by
  unfold coeffL
  exact List.getD_eq_default u 0 h

theorem toP_coeff (u : List ℚ) (n : ℕ) : (toP u).coeff n = coeffL u n := by
  induction u generalizing n with
  | nil => simp [toP, coeffL_nil]
  | cons q t ih =>
    cases n with
    | zero => simp [toP, coeffL_cons_zero]
    | succ m =>
      simp [toP, Polynomial.coeff_X_mul, ih, coeffL_cons_succ,
        Polynomial.coeff_C]

theorem toP_trim (u : List ℚ) : toP (trim u) = toP u := by
  induction u with
  | nil => rfl
  | cons q t ih =>
    show toP (match trim t with
      | [] => if q = 0 then [] else [q]
      | r :: v => q :: r :: v) = toP (q :: t)
    cases htr : trim t with
    | nil =>
      by_cases hq : q = 0 <;>
        simp [hq, toP, ← ih, htr]
    | cons r v =>
      simp [toP, ← ih, htr]

theorem trim_cons_of_nil (q : ℚ) (t : List ℚ) (h : trim t = []) :
    trim (q :: t) = if q = 0 then [] else [q] := by
  show (match trim t with
    | [] => if q = 0 then [] else [q]
    | r :: v => q :: r :: v) = _
  rw [h]

theorem trim_cons_cons (q r : ℚ) (t v : List ℚ) (h : trim t = r :: v) :
    trim (q :: t) = q :: r :: v := by
  show (match trim t with
    | [] => if q = 0 then [] else [q]
    | s :: w => q :: s :: w) = _
  rw [h]

theorem trim_trim (u : List ℚ) : trim (trim u) = trim u := by
  induction u with
  | nil => rfl
  | cons q t ih =>
    cases htr : trim t with
    | nil =>
      rw [trim_cons_of_nil q t htr]
      by_cases hq : q = 0
      · rw [if_pos hq]; rfl
      · rw [if_neg hq, trim_cons_of_nil q [] rfl, if_neg hq]
    | cons r v =>
      rw [trim_cons_cons q r t v htr]
      rw [htr] at ih
      exact trim_cons_cons q r (r :: v) v ih

/-- Canonical lists are empty or end in a nonzero coefficient. -/
theorem trim_last_ne (u : List ℚ) (h : trim u = u) (hne : u ≠ []) :
    coeffL u (u.length - 1) ≠ 0 := by
  induction u with
  | nil => exact absurd rfl hne
  | cons q t ih =>
    cases htr : trim t with
    | nil =>
      rw [trim_cons_of_nil q t htr] at h
      by_cases hq : q = 0
      · rw [if_pos hq] at h
        exact absurd h.symm (List.cons_ne_nil q t)
      · rw [if_neg hq] at h
        have ht : t = [] := (List.cons.inj h).2.symm
        subst ht
        simpa [coeffL] using hq
    | cons r v =>
      rw [trim_cons_cons q r t v htr] at h
      have ht : t = r :: v := (List.cons.inj h).2.symm
      have ht2 : trim t = t := by rw [htr, ht]
      have hlast := ih ht2 (by simp [ht])
      have hlen : (q :: t).length - 1 = (t.length - 1) + 1 := by
        rw [ht]; simp
      rw [hlen, coeffL_cons_succ]
      exact hlast

/-- Lists ending in a nonzero coefficient are canonical. -/
theorem trim_of_last_ne (u : List ℚ) (h : coeffL u (u.length - 1) ≠ 0) :
    trim u = u := by
  induction u with
  | nil => rfl
  | cons q t ih =>
    cases ht : t with
    | nil =>
      subst ht
      have hq : q ≠ 0 := by simpa [coeffL] using h
      rw [trim_cons_of_nil q [] rfl, if_neg hq]
    | cons r v =>
      have hlast : coeffL t (t.length - 1) ≠ 0 := by
        subst ht
        have hlen : (q :: r :: v).length - 1 = ((r :: v).length - 1) + 1 := by
          simp
        rw [hlen, coeffL_cons_succ] at h
        exact h
      have htr : trim t = t := ih hlast
      rw [ht] at htr
      exact trim_cons_cons q r (r :: v) v htr

theorem toP_eq_zero_iff (u : List ℚ) : toP u = 0 ↔ trim u = [] := by
  constructor
  · intro h
    by_contra hne
    cases htr : trim u with
    | nil => exact hne htr
    | cons r v =>
      have hcanon : trim (trim u) = trim u := trim_trim u
      rw [htr] at hcanon
      have := trim_last_ne (r :: v) hcanon (List.cons_ne_nil r v)
      have hc : (toP (r :: v)).coeff ((r :: v).length - 1) = 0 := by
        rw [← htr, toP_trim, h, Polynomial.coeff_zero]
      rw [toP_coeff] at hc
      exact this hc
  · intro h
    rw [← toP_trim, h]
    rfl

/-- `toP` is injective on canonical lists. -/
theorem toP_inj (u v : List ℚ) (hu : trim u = u) (hv : trim v = v)
    (h : toP u = toP v) : u = v := by
  have hco : ∀ n, coeffL u n = coeffL v n := by
    intro n
    rw [← toP_coeff, ← toP_coeff, h]
  have hlen : u.length = v.length := by
    by_contra hne
    rcases Nat.lt_or_ge u.length v.length with hlt | hge
    · have h1 := trim_last_ne v hv (by intro hnil; subst hnil; simp at hlt)
      have h2 : coeffL u (v.length - 1) = 0 :=
        coeffL_of_len_le u _ (by omega)
      rw [hco] at h2
      exact h1 h2
    · have hgt : v.length < u.length := by omega
      have h1 := trim_last_ne u hu (by intro hnil; subst hnil; simp at hgt)
      have h2 : coeffL v (u.length - 1) = 0 :=
        coeffL_of_len_le v _ (by omega)
      rw [← hco] at h2
      exact h1 h2
  apply List.ext_getElem hlen
  intro i h1 h2
  have := hco i
  unfold coeffL at this
  rwa [List.getD_eq_getElem?_getD, List.getD_eq_getElem?_getD,
    List.getElem?_eq_getElem h1, List.getElem?_eq_getElem h2] at this

theorem coeffL_trim (u : List ℚ) (n : ℕ) : coeffL (trim u) n = coeffL u n := by
  rw [← toP_coeff, toP_trim, toP_coeff]

/-- A list all of whose coefficients vanish from `N` on trims to length at
most `N`. -/
theorem trim_len_le (u : List ℚ) (N : ℕ) (h : ∀ n, N ≤ n → coeffL u n = 0) :
    (trim u).length ≤ N := by
  by_contra hlt
  push_neg at hlt
  have hne : trim u ≠ [] := by
    intro hnil
    rw [hnil] at hlt
    simp at hlt
  have h1 := trim_last_ne (trim u) (trim_trim u) hne
  have h2 : coeffL (trim u) ((trim u).length - 1) = 0 := by
    rw [coeffL_trim]
    exact h _ (by omega)
  exact h1 h2

theorem trim_len_le_self (u : List ℚ) : (trim u).length ≤ u.length :=
  trim_len_le u u.length (fun n hn => coeffL_of_len_le u n hn)

/-! Interpretation lemmas for the executable operations. -/

theorem toP_addRaw (u v : List ℚ) : toP (addRaw u v) = toP u + toP v := by
  induction u generalizing v with
  | nil => simp [addRaw, toP]
  | cons q t ih =>
    cases v with
    | nil => simp [addRaw, toP]
    | cons r w =>
      show toP (qAdd q r :: addRaw t w) = _
      rw [qAdd_eq]
      simp only [toP, ih, map_add]
      ring

theorem toP_polyAdd (u v : List ℚ) : toP (polyAdd u v) = toP u + toP v := by
  rw [polyAdd, toP_trim, toP_addRaw]

theorem toP_mapMul (c : ℚ) (u : List ℚ) :
    toP (u.map (fun q => qMul c q)) = Polynomial.C c * toP u := by
  induction u with
  | nil => simp [toP]
  | cons q t ih =>
    simp only [qMul_eq] at ih ⊢
    simp only [List.map_cons, toP, ih, map_mul]
    ring

theorem toP_polySmul (c : ℚ) (u : List ℚ) :
    toP (polySmul c u) = Polynomial.C c * toP u := by
  rw [polySmul, toP_trim, toP_mapMul]

theorem toP_mapNeg (u : List ℚ) : toP (u.map (fun q => qNeg q)) = -toP u := by
  induction u with
  | nil => simp [toP]
  | cons q t ih =>
    simp only [qNeg_eq] at ih ⊢
    simp only [List.map_cons, toP, ih, map_neg]
    ring

theorem toP_polySub (u v : List ℚ) : toP (polySub u v) = toP u - toP v := by
  rw [polySub, toP_polyAdd, toP_mapNeg]
  ring

theorem toP_mulRaw (u v : List ℚ) : toP (mulRaw u v) = toP u * toP v := by
  induction u with
  | nil => simp [mulRaw, toP]
  | cons q t ih =>
    show toP (addRaw (v.map (fun r => qMul q r)) ((0:ℚ) :: mulRaw t v)) = _
    rw [toP_addRaw, toP_mapMul]
    simp only [toP, ih, map_zero]
    ring

theorem toP_polyMul (u v : List ℚ) : toP (polyMul u v) = toP u * toP v := by
  rw [polyMul, toP_trim, toP_mulRaw]

theorem toP_repl_append (k : ℕ) (u : List ℚ) :
    toP (List.replicate k 0 ++ u) = Polynomial.X ^ k * toP u := by
  induction k with
  | zero => simp
  | succ m ih =>
    rw [List.replicate_succ, List.cons_append]
    show Polynomial.C 0 + Polynomial.X * toP (List.replicate m 0 ++ u) = _
    rw [ih, map_zero, zero_add]
    ring

theorem toP_shiftUp (k : ℕ) (u : List ℚ) :
    toP (shiftUp k u) = Polynomial.X ^ k * toP u := by
  rw [shiftUp, toP_trim, toP_repl_append]

theorem toP_single (q : ℚ) : toP [q] = Polynomial.C q := by
  simp [toP]

theorem toP_one : toP [1] = 1 := by
  rw [toP_single, map_one]

/-! Coefficient formulas for the operations. -/

theorem coeffL_polyAdd (u v : List ℚ) (n : ℕ) :
    coeffL (polyAdd u v) n = coeffL u n + coeffL v n := by
  rw [← toP_coeff, toP_polyAdd, Polynomial.coeff_add, toP_coeff, toP_coeff]

theorem coeffL_polySmul (c : ℚ) (u : List ℚ) (n : ℕ) :
    coeffL (polySmul c u) n = c * coeffL u n := by
  rw [← toP_coeff, toP_polySmul, Polynomial.coeff_C_mul, toP_coeff]

theorem coeffL_polySub (u v : List ℚ) (n : ℕ) :
    coeffL (polySub u v) n = coeffL u n - coeffL v n := by
  rw [← toP_coeff, toP_polySub, Polynomial.coeff_sub, toP_coeff, toP_coeff]

theorem coeffL_shiftUp (k : ℕ) (u : List ℚ) (n : ℕ) :
    coeffL (shiftUp k u) n = if n < k then 0 else coeffL u (n - k) := by
  rw [← toP_coeff, toP_shiftUp, mul_comm, Polynomial.coeff_mul_X_pow']
  by_cases h : k ≤ n
  · rw [if_pos h, if_neg (by omega), toP_coeff]
  · rw [if_neg h, if_pos (by omega)]

/-- Canonicity of operation outputs. -/
theorem canon_polyAdd (u v : List ℚ) : trim (polyAdd u v) = polyAdd u v :=
  trim_trim _

theorem canon_polySmul (c : ℚ) (u : List ℚ) : trim (polySmul c u) = polySmul c u :=
  trim_trim _

theorem canon_polySub (u v : List ℚ) : trim (polySub u v) = polySub u v :=
  trim_trim _

theorem canon_polyMul (u v : List ℚ) : trim (polyMul u v) = polyMul u v :=
  trim_trim _

theorem canon_shiftUp (k : ℕ) (u : List ℚ) : trim (shiftUp k u) = shiftUp k u :=
  trim_trim _

theorem coeffL_shiftDown (k : ℕ) (u : List ℚ) (n : ℕ) :
    coeffL (shiftDown k u) n = coeffL u (k + n) := by
  unfold shiftDown coeffL
  rw [List.getD_eq_getElem?_getD, List.getElem?_drop,
    ← List.getD_eq_getElem?_getD]

theorem canon_tail (q : ℚ) (t : List ℚ) (h : trim (q :: t) = q :: t)
    (ht : t ≠ []) : trim t = t := by
  apply trim_of_last_ne
  have h1 := trim_last_ne (q :: t) h (List.cons_ne_nil q t)
  have hlen : (q :: t).length - 1 = (t.length - 1) + 1 := by
    cases t with
    | nil => exact absurd rfl ht
    | cons r v => simp
  rw [hlen, coeffL_cons_succ] at h1
  exact h1

theorem canon_nonzero_ne_nil (t : List ℚ) (h : trim (0 :: t) = 0 :: t) :
    t ≠ [] := by
  intro hnil
  subst hnil
  have := trim_last_ne [0] h (by simp)
  simp [coeffL] at this

theorem polyVal_coeff_lt (u : List ℚ) (i : ℕ) (h : i < polyVal u) :
    coeffL u i = 0 := by
  induction u generalizing i with
  | nil => rfl
  | cons q t ih =>
    by_cases hq : q = 0
    · rw [polyVal, if_pos hq] at h
      cases i with
      | zero => simpa [coeffL_cons_zero]
      | succ m =>
        rw [coeffL_cons_succ]
        exact ih m (by omega)
    · rw [polyVal, if_neg hq] at h
      omega

theorem polyVal_coeff_ne (u : List ℚ) (hc : trim u = u) (hne : u ≠ []) :
    coeffL u (polyVal u) ≠ 0 := by
  induction u with
  | nil => exact absurd rfl hne
  | cons q t ih =>
    by_cases hq : q = 0
    · subst hq
      have htne := canon_nonzero_ne_nil t hc
      have htc := canon_tail 0 t hc htne
      rw [polyVal, if_pos rfl, coeffL_cons_succ]
      exact ih htc htne
    · rw [polyVal, if_neg hq, coeffL_cons_zero]
      exact hq

theorem polyVal_lt_len (u : List ℚ) (hc : trim u = u) (hne : u ≠ []) :
    polyVal u < u.length := by
  by_contra h
  push_neg at h
  exact polyVal_coeff_ne u hc hne (coeffL_of_len_le u _ h)

theorem val_split (u : List ℚ) (h : polyVal u < u.length) :
    List.replicate (polyVal u) 0 ++ shiftDown (polyVal u) u = u := by
  induction u with
  | nil => simp at h
  | cons q t ih =>
    by_cases hq : q = 0
    · subst hq
      rw [polyVal, if_pos rfl]
      rw [polyVal, if_pos rfl] at h
      have h2 : polyVal t < t.length := by
        simp only [List.length_cons] at h
        omega
      have := ih h2
      rw [List.replicate_succ, List.cons_append]
      show (0:ℚ) :: (List.replicate (polyVal t) 0 ++ shiftDown (polyVal t) t) = _
      rw [this]
    · rw [polyVal, if_neg hq]
      rfl

theorem toP_val_split (u : List ℚ) (hc : trim u = u) (hne : u ≠ []) :
    toP u = Polynomial.X ^ polyVal u * toP (shiftDown (polyVal u) u) := by
  conv_lhs => rw [← val_split u (polyVal_lt_len u hc hne)]
  rw [toP_repl_append]

theorem canon_shiftDown (k : ℕ) (u : List ℚ) (hc : trim u = u) :
    trim (shiftDown k u) = shiftDown k u := by
  cases hd : shiftDown k u with
  | nil => rfl
  | cons r v =>
    rw [← hd]
    apply trim_of_last_ne
    have hlen : k + ((shiftDown k u).length - 1) = u.length - 1 := by
      have h1 : (shiftDown k u).length = u.length - k := by
        simp [shiftDown]
      have h2 : (shiftDown k u).length ≠ 0 := by
        rw [hd]; simp
      omega
    rw [coeffL_shiftDown, hlen]
    apply trim_last_ne u hc
    intro hnil
    subst hnil
    simp [shiftDown] at hd

theorem constCoeff_shiftDown_val (u : List ℚ) (hc : trim u = u) (hne : u ≠ []) :
    constCoeff (shiftDown (polyVal u) u) ≠ 0 := by
  rw [constCoeff, coeffL_shiftDown]
  simpa using polyVal_coeff_ne u hc hne

theorem shiftUp_of_canon (k : ℕ) (u : List ℚ) (hc : trim u = u) (hne : u ≠ []) :
    shiftUp k u = List.replicate k 0 ++ u := by
  apply trim_of_last_ne
  have hl : (List.replicate k 0 ++ u).length - 1 = k + (u.length - 1) := by
    cases u with
    | nil => exact absurd rfl hne
    | cons q t => simp
  unfold coeffL
  rw [hl, List.getD_eq_getElem?_getD, List.getElem?_append_right (by simp),
    ← List.getD_eq_getElem?_getD]
  simp only [List.length_replicate, Nat.add_sub_cancel_left]
  exact trim_last_ne u hc hne

theorem polyVal_repl_append (k : ℕ) (u : List ℚ) (h : constCoeff u ≠ 0) :
    polyVal (List.replicate k 0 ++ u) = k := by
  induction k with
  | zero =>
    cases u with
    | nil => simp [constCoeff, coeffL] at h
    | cons q t =>
      have hq : q ≠ 0 := by simpa [constCoeff, coeffL_cons_zero] using h
      simp [polyVal, hq]
  | succ m ih =>
    rw [List.replicate_succ, List.cons_append]
    show polyVal ((0:ℚ) :: (List.replicate m 0 ++ u)) = m + 1
    rw [polyVal, if_pos rfl, ih]

theorem shiftDown_repl_append (k : ℕ) (u : List ℚ) :
    shiftDown k (List.replicate k 0 ++ u) = u := by
  simp [shiftDown]

theorem toP_ne_zero (u : List ℚ) (hc : trim u = u) (hne : u ≠ []) :
    toP u ≠ 0 := by
  intro h
  rw [toP_eq_zero_iff, hc] at h
  exact hne h

theorem natDegree_toP (u : List ℚ) (hc : trim u = u) (hne : u ≠ []) :
    (toP u).natDegree = u.length - 1 := by
  apply le_antisymm
  · rw [Polynomial.natDegree_le_iff_coeff_eq_zero]
    intro N hN
    rw [toP_coeff]
    exact coeffL_of_len_le u N (by omega)
  · apply Polynomial.le_natDegree_of_ne_zero
    rw [toP_coeff]
    exact trim_last_ne u hc hne

/-! ### Correctness of the division algorithm -/

theorem divModF_succ (fuel : ℕ) (a b : List ℚ) :
    divModF (fuel + 1) a b =
      (if trim b = [] then ([], trim a)
       else if (trim a).length < (trim b).length then ([], trim a)
       else
        (polyAdd
          (divModF fuel
            (polySub (trim a) (shiftUp ((trim a).length - (trim b).length)
              (polySmul (qDiv (leadC (trim a)) (leadC (trim b))) (trim b)))) (trim b)).1
          (shiftUp ((trim a).length - (trim b).length)
            [qDiv (leadC (trim a)) (leadC (trim b))]),
         (divModF fuel
            (polySub (trim a) (shiftUp ((trim a).length - (trim b).length)
              (polySmul (qDiv (leadC (trim a)) (leadC (trim b))) (trim b)))) (trim b)).2)) :=
  rfl

theorem divModF_spec (fuel : ℕ) :
    ∀ a b : List ℚ, trim b ≠ [] → (trim a).length ≤ fuel →
    toP a = toP b * toP (divModF fuel a b).1 + toP (divModF fuel a b).2 ∧
    trim (divModF fuel a b).1 = (divModF fuel a b).1 ∧
    trim (divModF fuel a b).2 = (divModF fuel a b).2 ∧
    (divModF fuel a b).2.length < (trim b).length := by
  induction fuel with
  | zero =>
    intro a b hb hlen
    have ha : trim a = [] := List.length_eq_zero.mp (by omega)
    have hz : toP a = 0 := by rw [← toP_trim, ha]; rfl
    refine ⟨?_, rfl, ?_, ?_⟩
    · show toP a = toP b * toP [] + toP (trim a)
      rw [toP_trim]
      show toP a = toP b * 0 + toP a
      ring
    · show trim (trim a) = trim a
      exact trim_trim a
    · show (trim a).length < (trim b).length
      rw [ha]
      have : trim b ≠ [] := hb
      cases hcb : trim b with
      | nil => exact absurd hcb hb
      | cons r v => simp
  | succ fuel ih =>
    intro a b hb hlen
    rw [divModF_succ, if_neg hb]
    by_cases hlt : (trim a).length < (trim b).length
    · rw [if_pos hlt]
      refine ⟨?_, rfl, trim_trim a, hlt⟩
      show toP a = toP b * toP [] + toP (trim a)
      rw [toP_trim]
      show toP a = toP b * 0 + toP a
      ring
    · rw [if_neg hlt]
      push_neg at hlt
      have hbne : (trim b).length ≠ 0 := by
        intro h0
        exact hb (List.length_eq_zero.mp h0)
      have hlead_b := trim_last_ne (trim b) (trim_trim b) hb
      have hane : trim a ≠ [] := by
        intro h0
        rw [h0] at hlt
        have h1 : (trim b).length = 0 := by simpa using hlt
        exact hb (List.length_eq_zero.mp h1)
      have hlead_a := trim_last_ne (trim a) (trim_trim a) hane
      set k := (trim a).length - (trim b).length with hk
      set q0 := qDiv (leadC (trim a)) (leadC (trim b)) with hq0
      set a2 := polySub (trim a) (shiftUp k (polySmul q0 (trim b))) with ha2
      have hvanish : ∀ n, (trim a).length - 1 ≤ n → coeffL a2 n = 0 := by
        intro n hn
        rw [ha2, coeffL_polySub, coeffL_shiftUp]
        by_cases hnk : n < k
        · exfalso
          omega
        · rw [if_neg hnk, coeffL_polySmul]
          rcases Nat.eq_or_lt_of_le hn with heq | hgt
          · have hnk2 : n - k = (trim b).length - 1 := by omega
            have hn2 : n = (trim a).length - 1 := heq.symm
            rw [hnk2, hn2]
            show leadC (trim a) - q0 * leadC (trim b) = 0
            have hlb : leadC (trim b) ≠ 0 := hlead_b
            rw [hq0, qDiv_eq, div_mul_cancel₀ _ hlb]
            ring
          · rw [coeffL_of_len_le (trim a) n (by omega),
              coeffL_of_len_le (trim b) (n - k) (by omega)]
            ring
      have ha2canon : trim a2 = a2 := by rw [ha2]; exact canon_polySub _ _
      have ha2len : a2.length ≤ fuel := by
        have h1 : (trim a2).length ≤ (trim a).length - 1 :=
          trim_len_le a2 _ hvanish
        rw [ha2canon] at h1
        omega
      have ha2len2 : (trim a2).length ≤ fuel := by rw [ha2canon]; exact ha2len
      obtain ⟨heq, hqc, hrc, hrlen⟩ := ih a2 (trim b) (by rw [trim_trim]; exact hb) ha2len2
      rw [trim_trim] at hrlen
      have htoPa2 : toP a2 = toP a - Polynomial.X ^ k * (Polynomial.C q0 * toP b) := by
        rw [ha2, toP_polySub, toP_trim, toP_shiftUp, toP_polySmul, toP_trim]
      refine ⟨?_, canon_polyAdd _ _, hrc, hrlen⟩
      rw [toP_polyAdd, toP_shiftUp, toP_single]
      have hb2 : toP (trim b) = toP b := toP_trim b
      rw [hb2] at heq
      have : toP a = (toP a2) + Polynomial.X ^ k * (Polynomial.C q0 * toP b) := by
        rw [htoPa2]; ring
      rw [this, heq]
      ring

/-- `quo_rem` specification: for a nonzero divisor, the source's division
satisfies the Euclidean property with canonical outputs and a remainder of
smaller degree. -/
theorem polyDivMod_spec (a b : List ℚ) (hb : trim b ≠ []) :
    toP a = toP b * toP (polyQuo a b) + toP (polyRem a b) ∧
    trim (polyQuo a b) = polyQuo a b ∧
    trim (polyRem a b) = polyRem a b ∧
    (polyRem a b).length < (trim b).length := by
  have := divModF_spec (trim a).length a b hb (le_refl _)
  exact this

/-! ### Correctness of the gcd -/

theorem toP_monicize (u : List ℚ) :
    toP (monicize u) = Polynomial.C (leadC u)⁻¹ * toP u := by
  rw [monicize, toP_polySmul, qInv_eq]

theorem monicize_dvd (u : List ℚ) (hc : trim u = u) :
    toP (monicize u) ∣ toP u := by
  by_cases hne : u = []
  · subst hne
    exact dvd_refl _
  · have hlu : leadC u ≠ 0 := trim_last_ne u hc hne
    refine ⟨Polynomial.C (leadC u), ?_⟩
    rw [toP_monicize]
    rw [mul_comm, ← mul_assoc, ← map_mul, mul_inv_cancel₀ hlu, map_one, one_mul]

theorem dvd_monicize (u : List ℚ) : toP u ∣ toP (monicize u) := by
  rw [toP_monicize]
  exact Dvd.dvd.mul_left dvd_rfl _

theorem polySmul_map (c : ℚ) (hc : c ≠ 0) (u : List ℚ) (hu : trim u = u) :
    polySmul c u = u.map (fun q => qMul c q) := by
  cases hne : u with
  | nil => rfl
  | cons q t =>
    rw [← hne, polySmul]
    apply trim_of_last_ne
    have hlen : (u.map (fun q => qMul c q)).length = u.length := by simp
    have hco : coeffL (u.map (fun q => qMul c q)) (u.length - 1) = c * leadC u := by
      have h2 := coeffL_polySmul c u (u.length - 1)
      rw [polySmul, coeffL_trim] at h2
      exact h2
    rw [hlen, hco]
    exact mul_ne_zero hc (trim_last_ne u hu (by rw [hne]; exact List.cons_ne_nil q t))

theorem polySmul_len (c : ℚ) (hc : c ≠ 0) (u : List ℚ) (hu : trim u = u) :
    (polySmul c u).length = u.length := by
  rw [polySmul_map c hc u hu]
  simp

theorem polySmul_ne_nil (c : ℚ) (hc : c ≠ 0) (u : List ℚ) (hu : trim u = u)
    (hne : u ≠ []) : polySmul c u ≠ [] := by
  rw [polySmul_map c hc u hu]
  simpa using hne

theorem polySmul_one (u : List ℚ) (hu : trim u = u) : polySmul 1 u = u := by
  rw [polySmul]
  have h1 : u.map (fun q => qMul 1 q) = u := by
    simp [qMul_eq]
  rw [h1, hu]

theorem monicize_lead (u : List ℚ) (hc : trim u = u) (hne : u ≠ []) :
    leadC (monicize u) = 1 := by
  have hlu : leadC u ≠ 0 := trim_last_ne u hc hne
  have hqi : qInv (leadC u) ≠ 0 := by
    rw [qInv_eq]
    exact inv_ne_zero hlu
  have hlen : (monicize u).length = u.length := by
    rw [monicize]
    exact polySmul_len _ hqi _ hc
  show coeffL (monicize u) ((monicize u).length - 1) = 1
  rw [hlen]
  have h3 : coeffL (monicize u) (u.length - 1) = qInv (leadC u) * leadC u := by
    rw [monicize]
    exact coeffL_polySmul _ _ _
  rw [h3, qInv_eq, inv_mul_cancel₀ hlu]

theorem gcdF_succ (fuel : ℕ) (a b : List ℚ) :
    gcdF (fuel + 1) a b =
      if trim b = [] then monicize (trim a)
      else gcdF fuel (trim b) (polyRem a (trim b)) := rfl

theorem gcdF_spec (fuel : ℕ) :
    ∀ a b : List ℚ, (trim b).length ≤ fuel →
    trim (gcdF fuel a b) = gcdF fuel a b ∧
    (toP (gcdF fuel a b) ∣ toP a) ∧ (toP (gcdF fuel a b) ∣ toP b) ∧
    (∀ p : Polynomial ℚ, p ∣ toP a → p ∣ toP b → p ∣ toP (gcdF fuel a b)) ∧
    (gcdF fuel a b = [] ∨ leadC (gcdF fuel a b) = 1) := by
  induction fuel with
  | zero =>
    intro a b hlen
    have hb : trim b = [] := List.length_eq_zero.mp (by omega)
    have hbz : toP b = 0 := by rw [← toP_trim, hb]; rfl
    show trim (monicize (trim a)) = monicize (trim a) ∧ _
    refine ⟨trim_trim _, ?_, ?_, ?_, ?_⟩
    · have := monicize_dvd (trim a) (trim_trim a)
      rwa [toP_trim] at this
    · rw [hbz]
      exact dvd_zero _
    · intro p hpa _
      have h1 : toP (trim a) ∣ toP (monicize (trim a)) := dvd_monicize _
      rw [toP_trim] at h1
      exact dvd_trans hpa h1
    · by_cases hta : trim a = []
      · left
        show monicize (trim a) = []
        rw [hta]
        rfl
      · right
        exact monicize_lead (trim a) (trim_trim a) hta
  | succ fuel ih =>
    intro a b hlen
    rw [gcdF_succ]
    by_cases hb : trim b = []
    · rw [if_pos hb]
      have hbz : toP b = 0 := by rw [← toP_trim, hb]; rfl
      refine ⟨trim_trim _, ?_, ?_, ?_, ?_⟩
      · have := monicize_dvd (trim a) (trim_trim a)
        rwa [toP_trim] at this
      · rw [hbz]
        exact dvd_zero _
      · intro p hpa _
        have h1 : toP (trim a) ∣ toP (monicize (trim a)) := dvd_monicize _
        rw [toP_trim] at h1
        exact dvd_trans hpa h1
      · by_cases hta : trim a = []
        · left
          show monicize (trim a) = []
          rw [hta]
          rfl
        · right
          exact monicize_lead (trim a) (trim_trim a) hta
    · rw [if_neg hb]
      obtain ⟨hdm, hqc, hrc, hrlen⟩ := polyDivMod_spec a (trim b) (by rwa [trim_trim])
      rw [trim_trim] at hrlen
      have hfuel2 : (trim (polyRem a (trim b))).length ≤ fuel := by
        rw [hrc]
        have hble : (trim b).length ≤ fuel + 1 := hlen
        omega
      obtain ⟨hgc, hgb, hgr, hcom, hmon⟩ := ih (trim b) (polyRem a (trim b)) hfuel2
      rw [toP_trim] at hgb
      refine ⟨hgc, ?_, hgb, ?_, hmon⟩
      · rw [hdm]
        have h1 : toP (trim b) = toP b := toP_trim b
        rw [h1]
        exact dvd_add (Dvd.dvd.mul_right hgb _) hgr
      · intro p hpa hpb
        apply hcom
        · rwa [toP_trim]
        · have hrval : toP (polyRem a (trim b)) =
              toP a - toP (trim b) * toP (polyQuo a (trim b)) := by
            rw [hdm]
            ring
          rw [hrval, toP_trim]
          exact dvd_sub hpa (Dvd.dvd.mul_right hpb _)

/-- Properties of the source's polynomial gcd. -/
theorem polyGcd_spec (a b : List ℚ) :
    trim (polyGcd a b) = polyGcd a b ∧
    (toP (polyGcd a b) ∣ toP a) ∧ (toP (polyGcd a b) ∣ toP b) ∧
    (∀ p : Polynomial ℚ, p ∣ toP a → p ∣ toP b → p ∣ toP (polyGcd a b)) ∧
    (polyGcd a b = [] ∨ leadC (polyGcd a b) = 1) :=
  gcdF_spec ((trim b).length + 1) a b (by omega)

theorem polyGcd_ne_nil (a b : List ℚ) (hb : trim b ≠ []) : polyGcd a b ≠ [] := by
  intro h0
  obtain ⟨_, _, hgb, _, _⟩ := polyGcd_spec a b
  rw [h0] at hgb
  have : toP b = 0 := zero_dvd_iff.mp hgb
  exact hb (by rwa [← toP_eq_zero_iff])

/-- On lists interpreting to coprime polynomials (with nonzero second
argument), the gcd is exactly `[1]`. -/
theorem polyGcd_eq_one (a b : List ℚ) (h : IsCoprime (toP a) (toP b))
    (hb : trim b ≠ []) : polyGcd a b = [1] := by
  obtain ⟨hc, hga, hgb, _, hmon⟩ := polyGcd_spec a b
  obtain ⟨u, v, huv⟩ := h
  have hdvd1 : toP (polyGcd a b) ∣ 1 := by
    rw [← huv]
    exact dvd_add (Dvd.dvd.mul_left hga u) (Dvd.dvd.mul_left hgb v)
  obtain ⟨r, hr, hCr⟩ := Polynomial.isUnit_iff.mp (isUnit_of_dvd_one hdvd1)
  have hrne : r ≠ 0 := IsUnit.ne_zero hr
  have hcanon1 : trim [r] = [r] := by
    apply trim_of_last_ne
    simpa [coeffL] using hrne
  have hglist : polyGcd a b = [r] := by
    apply toP_inj _ _ hc hcanon1
    rw [toP_single, hCr]
  rcases hmon with h0 | h1
  · rw [h0] at hglist
    exact absurd hglist.symm (List.cons_ne_nil r [])
  · rw [hglist] at h1
    have : r = 1 := by simpa [leadC, coeffL] using h1
    rw [hglist, this]

/-- Conversely, gcd `[1]` gives coprimality of the interpretations. -/
theorem isCoprime_of_polyGcd_one (a b : List ℚ) (h : polyGcd a b = [1]) :
    IsCoprime (toP a) (toP b) := by
  obtain ⟨_, _, _, hcom, _⟩ := polyGcd_spec a b
  rw [← EuclideanDomain.gcd_isUnit_iff]
  have h1 : EuclideanDomain.gcd (toP a) (toP b) ∣ toP (polyGcd a b) :=
    hcom _ (EuclideanDomain.gcd_dvd_left _ _) (EuclideanDomain.gcd_dvd_right _ _)
  rw [h, toP_one] at h1
  exact isUnit_of_dvd_one h1

/-- Exact division: when the divisor interprets to a divisor of the
dividend, the remainder vanishes and the quotient is exact. -/
theorem polyQuo_exact (a b : List ℚ) (hb : trim b ≠ [])
    (hdvd : toP b ∣ toP a) :
    polyRem a b = [] ∧ toP a = toP b * toP (polyQuo a b) := by
  obtain ⟨hdm, hqc, hrc, hrlen⟩ := polyDivMod_spec a b hb
  have hrdvd : toP b ∣ toP (polyRem a b) := by
    have : toP (polyRem a b) = toP a - toP b * toP (polyQuo a b) := by
      rw [hdm]; ring
    rw [this]
    exact dvd_sub hdvd (Dvd.dvd.mul_right dvd_rfl _)
  have hrz : toP (polyRem a b) = 0 := by
    by_contra hne
    have hrnil : polyRem a b ≠ [] := by
      intro h0
      rw [h0] at hne
      exact hne rfl
    have h1 : (toP b).natDegree ≤ (toP (polyRem a b)).natDegree :=
      Polynomial.natDegree_le_of_dvd hrdvd hne
    rw [natDegree_toP (polyRem a b) hrc hrnil] at h1
    have h2 : (toP b).natDegree = (trim b).length - 1 := by
      rw [← toP_trim]
      exact natDegree_toP (trim b) (trim_trim b) hb
    rw [h2] at h1
    have hblen : (trim b).length ≠ 0 := fun h0 => hb (List.length_eq_zero.mp h0)
    have hrlen0 : (polyRem a b).length ≠ 0 := fun h0 =>
      hrnil (List.length_eq_zero.mp h0)
    omega
  have hrnil : polyRem a b = [] := by
    rw [toP_eq_zero_iff] at hrz
    rwa [hrc] at hrz
  refine ⟨hrnil, ?_⟩
  rw [hdm, hrz, add_zero]

/-- Dividing out the gcd leaves coprime quotients. -/
theorem isCoprime_quo_gcd (a b : List ℚ) (hb : trim b ≠ []) :
    IsCoprime (toP (polyQuo a (polyGcd a b))) (toP (polyQuo b (polyGcd a b))) := by
  obtain ⟨hgc, hga, hgb, hcom, _⟩ := polyGcd_spec a b
  have hgne : polyGcd a b ≠ [] := polyGcd_ne_nil a b hb
  have hgtrim : trim (polyGcd a b) ≠ [] := by rwa [hgc]
  have hgz : toP (polyGcd a b) ≠ 0 := toP_ne_zero _ hgc hgne
  obtain ⟨_, hea⟩ := polyQuo_exact a (polyGcd a b) hgtrim hga
  obtain ⟨_, heb⟩ := polyQuo_exact b (polyGcd a b) hgtrim hgb
  rw [← EuclideanDomain.gcd_isUnit_iff]
  set E := EuclideanDomain.gcd (toP (polyQuo a (polyGcd a b)))
    (toP (polyQuo b (polyGcd a b))) with hE
  have hEa : E * toP (polyGcd a b) ∣ toP a := by
    rw [hea, mul_comm E]
    exact mul_dvd_mul_left _ (EuclideanDomain.gcd_dvd_left _ _)
  have hEb : E * toP (polyGcd a b) ∣ toP b := by
    rw [heb, mul_comm E]
    exact mul_dvd_mul_left _ (EuclideanDomain.gcd_dvd_right _ _)
  have hEg : E * toP (polyGcd a b) ∣ toP (polyGcd a b) := hcom _ hEa hEb
  obtain ⟨w, hw⟩ := hEg
  have h1 : (1 : Polynomial ℚ) = E * w := by
    have h2 : toP (polyGcd a b) * 1 = toP (polyGcd a b) * (E * w) := by
      rw [mul_one]
      calc toP (polyGcd a b) = E * toP (polyGcd a b) * w := hw
      _ = toP (polyGcd a b) * (E * w) := by ring
    exact mul_left_cancel₀ hgz h2
  exact isUnit_of_mul_eq_one _ _ h1.symm

/-- Shape and coprimality of the Sage fraction reduction. -/
theorem sageReduce_spec (n0 d0 : List ℚ) (hd : trim d0 ≠ []) :
    trim (sageReduce n0 d0).1 = (sageReduce n0 d0).1 ∧
    trim (sageReduce n0 d0).2 = (sageReduce n0 d0).2 ∧
    IsCoprime (toP (sageReduce n0 d0).1) (toP (sageReduce n0 d0).2) ∧
    ((sageReduce n0 d0).2 = [1] ∨ 2 ≤ (sageReduce n0 d0).2.length) ∧
    ((sageReduce n0 d0).2 ≠ [1] → (sageReduce n0 d0).1 ≠ []) := by
  have hdc : trim (trim d0) = trim d0 := trim_trim d0
  have base : trim (gcdReduce (trim n0) (trim d0)).1 = (gcdReduce (trim n0) (trim d0)).1 ∧
      trim (gcdReduce (trim n0) (trim d0)).2 = (gcdReduce (trim n0) (trim d0)).2 ∧
      IsCoprime (toP (gcdReduce (trim n0) (trim d0)).1)
        (toP (gcdReduce (trim n0) (trim d0)).2) ∧
      (gcdReduce (trim n0) (trim d0)).2 ≠ [] := by
    unfold gcdReduce
    by_cases hg : polyGcd (trim n0) (trim d0) = [1]
    · rw [if_pos hg]
      exact ⟨trim_trim n0, hdc, isCoprime_of_polyGcd_one _ _ hg, hd⟩
    · rw [if_neg hg]
      obtain ⟨hgc2, _, hgb2, _, _⟩ := polyGcd_spec (trim n0) (trim d0)
      have hgne : polyGcd (trim n0) (trim d0) ≠ [] :=
        polyGcd_ne_nil (trim n0) (trim d0) (by rwa [hdc])
      have hgtrim : trim (polyGcd (trim n0) (trim d0)) ≠ [] := by rwa [hgc2]
      obtain ⟨hdmq, hqc, _, _⟩ := polyDivMod_spec (trim n0) _ hgtrim
      obtain ⟨hdmq2, hqc2, _, _⟩ := polyDivMod_spec (trim d0) _ hgtrim
      refine ⟨hqc, hqc2, isCoprime_quo_gcd (trim n0) (trim d0) (by rwa [hdc]), ?_⟩
      intro h0
      obtain ⟨_, heb⟩ := polyQuo_exact (trim d0) _ hgtrim hgb2
      have h0b : polyQuo (trim d0) (polyGcd (trim n0) (trim d0)) = [] := h0
      rw [h0b] at heb
      have : toP (trim d0) = 0 := by
        rw [heb]
        show _ * toP [] = 0
        show _ * 0 = (0 : Polynomial ℚ)
        ring
      rw [toP_trim, toP_eq_zero_iff] at this
      exact hd this
  obtain ⟨h1, h2, h3, h4⟩ := base
  by_cases hlen : (gcdReduce (trim n0) (trim d0)).2.length = 1
  · have he : sageReduce n0 d0 =
        (polySmul (qInv (constCoeff (gcdReduce (trim n0) (trim d0)).2))
          (gcdReduce (trim n0) (trim d0)).1, [1]) := by
      show unitNorm _ = _
      unfold unitNorm
      rw [if_pos hlen]
    rw [he]
    refine ⟨trim_trim _, ?_, ?_, Or.inl rfl, fun h => absurd rfl h⟩
    · rfl
    · show IsCoprime (toP (polySmul _ _)) (toP [1])
      rw [toP_polySmul, toP_one]
      exact isCoprime_one_right
  · have he : sageReduce n0 d0 = gcdReduce (trim n0) (trim d0) := by
      show unitNorm _ = _
      unfold unitNorm
      rw [if_neg hlen]
    rw [he]
    refine ⟨h1, h2, h3, ?_, ?_⟩
    · right
      have hne0 : (gcdReduce (trim n0) (trim d0)).2.length ≠ 0 := by
        intro h0
        exact h4 (List.length_eq_zero.mp h0)
      omega
    · intro _ h0
      rw [h0] at h3
      have hunit : IsUnit (toP (gcdReduce (trim n0) (trim d0)).2) := by
        have hz : toP ([] : List ℚ) = 0 := rfl
        rw [hz] at h3
        exact (isCoprime_zero_left).mp h3
      obtain ⟨r, hr, hCr⟩ := Polynomial.isUnit_iff.mp hunit
      have hrne : r ≠ 0 := IsUnit.ne_zero hr
      have hcanon1 : trim [r] = [r] := by
        apply trim_of_last_ne
        simpa [coeffL] using hrne
      have hlist : (gcdReduce (trim n0) (trim d0)).2 = [r] :=
        toP_inj _ _ h2 hcanon1 (by rw [toP_single, hCr])
      rw [hlist] at hlen
      simp at hlen

/-! ### Helper lemmas for the canonicalizer invariants -/


theorem constCoeff_polySmul (c : ℚ) (u : List ℚ) :
    constCoeff (polySmul c u) = c * constCoeff u := by
  unfold constCoeff
  rw [coeffL_polySmul]

theorem polyVal_map_mul (c : ℚ) (hc : c ≠ 0) (u : List ℚ) :
    polyVal (u.map (fun q => qMul c q)) = polyVal u := by
  induction u with
  | nil => rfl
  | cons q t ih =>
    show polyVal (qMul c q :: t.map (fun q => qMul c q)) = _
    by_cases hq : q = 0
    · rw [polyVal, polyVal, if_pos hq, if_pos (by rw [qMul_eq, hq, mul_zero]), ih]
    · rw [polyVal, polyVal, if_neg hq,
        if_neg (by rw [qMul_eq]; exact mul_ne_zero hc hq)]

theorem polyVal_polySmul (c : ℚ) (hc : c ≠ 0) (u : List ℚ) (hu : trim u = u) :
    polyVal (polySmul c u) = polyVal u := by
  rw [polySmul_map c hc u hu, polyVal_map_mul c hc]

theorem polyQuo_one (u : List ℚ) : polyQuo u [1] = trim u := by
  have h1 : trim ([1] : List ℚ) ≠ [] := by decide
  obtain ⟨hdm, hqc, hrc, hrlen⟩ := polyDivMod_spec u [1] h1
  have hrtrim : trim ([1] : List ℚ) = [1] := by decide
  rw [hrtrim] at hrlen
  have hrnil : polyRem u [1] = [] := by
    have h2 : (([1] : List ℚ)).length = 1 := rfl
    have h3 : (polyRem u [1]).length = 0 := by omega
    exact List.length_eq_zero.mp h3
  have heq : toP (polyQuo u [1]) = toP (trim u) := by
    rw [toP_trim]
    rw [hrnil] at hdm
    have h0 : toP ([] : List ℚ) = 0 := rfl
    rw [h0, add_zero, toP_one, one_mul] at hdm
    exact hdm.symm
  exact toP_inj _ _ hqc (trim_trim u) heq

theorem shiftUp_ne_nil (k : ℕ) (u : List ℚ) (hu : trim u = u) (hne : u ≠ []) :
    shiftUp k u ≠ [] := by
  rw [shiftUp_of_canon k u hu hne]
  intro h
  exact hne (List.append_eq_nil.mp h).2

theorem shiftDown_shiftUp (k : ℕ) (u : List ℚ) (hu : trim u = u) :
    shiftDown k (shiftUp k u) = u := by
  by_cases hne : u = []
  · subst hne
    show shiftDown k (trim (List.replicate k 0 ++ [])) = []
    have : trim (List.replicate k 0 ++ ([] : List ℚ)) = [] := by
      rw [← toP_eq_zero_iff] at *
      rw [toP_repl_append]
      show _ * toP [] = 0
      show _ * (0 : Polynomial ℚ) = 0
      ring
    rw [this]
    simp [shiftDown]
  · rw [shiftUp_of_canon k u hu hne]
    exact shiftDown_repl_append k u

theorem shiftUp_len (k : ℕ) (u : List ℚ) (hu : trim u = u) (hne : u ≠ []) :
    (shiftUp k u).length = k + u.length := by
  rw [shiftUp_of_canon k u hu hne]
  simp

theorem polyVal_shiftUp (k : ℕ) (u : List ℚ) (hu : trim u = u)
    (h0 : constCoeff u ≠ 0) :
    polyVal (shiftUp k u) = k := by
  have hne : u ≠ [] := by
    intro h
    subst h
    exact h0 rfl
  rw [shiftUp_of_canon k u hu hne]
  exact polyVal_repl_append k u h0

theorem val_pos_of_const_zero (u : List ℚ) (hne : u ≠ [])
    (h0 : constCoeff u = 0) : 1 ≤ polyVal u := by
  cases u with
  | nil => exact absurd rfl hne
  | cons q t =>
    have hq : q = 0 := h0
    rw [polyVal, if_pos hq]
    omega

theorem X_dvd_toP_iff (u : List ℚ) :
    Polynomial.X ∣ toP u ↔ constCoeff u = 0 := by
  rw [Polynomial.X_dvd_iff, toP_coeff]
  rfl

theorem isCoprime_X_toP (u : List ℚ) (h0 : constCoeff u ≠ 0) :
    IsCoprime Polynomial.X (toP u) := by
  refine ⟨-(Polynomial.C (constCoeff u)⁻¹ * (toP u).divX),
    Polynomial.C (constCoeff u)⁻¹, ?_⟩
  have hsplit : Polynomial.X * (toP u).divX + Polynomial.C ((toP u).coeff 0) =
      toP u := Polynomial.X_mul_divX_add (toP u)
  have hc0 : (toP u).coeff 0 = constCoeff u := toP_coeff u 0
  rw [hc0] at hsplit
  have hconst : Polynomial.C (constCoeff u)⁻¹ * Polynomial.C (constCoeff u) = 1 := by
    rw [← map_mul, inv_mul_cancel₀ h0, map_one]
  have hsplit2 : Polynomial.C (constCoeff u) + Polynomial.X * (toP u).divX =
      toP u := by rw [add_comm]; exact hsplit
  have hsub : Polynomial.C (constCoeff u) =
      toP u - Polynomial.X * (toP u).divX := eq_sub_of_add_eq hsplit2
  calc -(Polynomial.C (constCoeff u)⁻¹ * (toP u).divX) * Polynomial.X +
        Polynomial.C (constCoeff u)⁻¹ * toP u
      = Polynomial.C (constCoeff u)⁻¹ *
          (toP u - Polynomial.X * (toP u).divX) := by ring
    _ = Polynomial.C (constCoeff u)⁻¹ * Polynomial.C (constCoeff u) := by
        rw [← hsub]
    _ = 1 := hconst

theorem isCoprime_Xpow_toP (k : ℕ) (u : List ℚ) (h0 : constCoeff u ≠ 0) :
    IsCoprime (Polynomial.X ^ k) (toP u) :=
  IsCoprime.pow_left (isCoprime_X_toP u h0)

theorem isCoprime_smul_both (c : ℚ) (hc : c ≠ 0) (a b : List ℚ)
    (h : IsCoprime (toP a) (toP b)) :
    IsCoprime (toP (polySmul c a)) (toP (polySmul c b)) := by
  obtain ⟨x, y, hxy⟩ := h
  refine ⟨x * Polynomial.C c⁻¹, y * Polynomial.C c⁻¹, ?_⟩
  rw [toP_polySmul, toP_polySmul]
  have hcc : Polynomial.C c⁻¹ * Polynomial.C c = 1 := by
    rw [← map_mul, inv_mul_cancel₀ hc, map_one]
  calc x * Polynomial.C c⁻¹ * (Polynomial.C c * toP a) +
        y * Polynomial.C c⁻¹ * (Polynomial.C c * toP b)
      = (x * toP a + y * toP b) * (Polynomial.C c⁻¹ * Polynomial.C c) := by ring
    _ = 1 := by rw [hxy, hcc, one_mul]

theorem not_both_const_zero (a b : List ℚ) (h : IsCoprime (toP a) (toP b)) :
    ¬ (constCoeff a = 0 ∧ constCoeff b = 0) := by
  rintro ⟨ha, hb⟩
  obtain ⟨x, y, hxy⟩ := h
  have hX : (Polynomial.X : Polynomial ℚ) ∣ 1 := by
    rw [← hxy]
    exact dvd_add (Dvd.dvd.mul_left ((X_dvd_toP_iff a).mpr ha) x)
      (Dvd.dvd.mul_left ((X_dvd_toP_iff b).mpr hb) y)
  exact Polynomial.not_isUnit_X (isUnit_of_dvd_one hX)

theorem shiftDown_val_ne_nil (u : List ℚ) (hc : trim u = u) (hne : u ≠ []) :
    shiftDown (polyVal u) u ≠ [] := by
  intro h
  have h1 := polyVal_lt_len u hc hne
  have h2 : (shiftDown (polyVal u) u).length = u.length - polyVal u := by
    simp [shiftDown]
  rw [h] at h2
  simp at h2
  omega

/-! ### Invariants of the canonicalizer stages -/

/-- Shape facts for `fracShift` under the invariant of a reduced fraction. -/
theorem fracShift_spec (p : List ℚ × List ℚ)
    (hn : trim p.1 = p.1) (hd : trim p.2 = p.2)
    (hnne : p.1 ≠ []) (hdne : p.2 ≠ [])
    (hcop : IsCoprime (toP p.1) (toP p.2)) :
    trim (fracShift p).2.1 = (fracShift p).2.1 ∧
    trim (fracShift p).2.2 = (fracShift p).2.2 ∧
    (fracShift p).2.1 ≠ [] ∧
    (fracShift p).2.2 ≠ [] ∧
    constCoeff (fracShift p).2.1 ≠ 0 ∧
    constCoeff (fracShift p).2.2 ≠ 0 ∧
    IsCoprime (toP (fracShift p).2.1) (toP (fracShift p).2.2) ∧
    (0 ≤ (fracShift p).1 → (fracShift p).2.2 = p.2) ∧
    ((fracShift p).1 < 0 → 1 ≤ (-(fracShift p).1).toNat) := by
  by_cases h1 : constCoeff p.1 = 0
  · have he : fracShift p =
        ((polyVal p.1 : ℤ), shiftDown (polyVal p.1) p.1, p.2) := by
      unfold fracShift
      rw [if_pos h1]
    rw [he]
    have hd0 : constCoeff p.2 ≠ 0 := by
      intro h2
      exact not_both_const_zero p.1 p.2 hcop ⟨h1, h2⟩
    refine ⟨canon_shiftDown _ _ hn, hd, shiftDown_val_ne_nil p.1 hn hnne, hdne,
      constCoeff_shiftDown_val p.1 hn hnne, hd0, ?_, fun _ => rfl, ?_⟩
    · have hsplit := toP_val_split p.1 hn hnne
      rw [hsplit] at hcop
      exact IsCoprime.of_mul_left_right hcop
    · intro hlt
      exfalso
      omega
  · by_cases h2 : constCoeff p.2 = 0
    · have he : fracShift p =
          (-(polyVal p.2 : ℤ), p.1, shiftDown (polyVal p.2) p.2) := by
        unfold fracShift
        rw [if_neg h1, if_pos h2]
      rw [he]
      have hval := val_pos_of_const_zero p.2 hdne h2
      refine ⟨hn, canon_shiftDown _ _ hd, hnne, shiftDown_val_ne_nil p.2 hd hdne,
        h1, constCoeff_shiftDown_val p.2 hd hdne, ?_, ?_, ?_⟩
      · have hsplit := toP_val_split p.2 hd hdne
        rw [hsplit] at hcop
        exact IsCoprime.of_mul_right_right hcop
      · intro h3
        exfalso
        omega
      · intro _
        omega
    · have he : fracShift p = (0, p.1, p.2) := by
        unfold fracShift
        rw [if_neg h1, if_neg h2]
      rw [he]
      exact ⟨hn, hd, hnne, hdne, h1, h2, hcop, fun _ => rfl, fun h3 => by omega⟩

/-- Shape facts for `fracNorm`; on a shift-normalized triple it only scales
the two polynomials, making the denominator's constant term one, and the
gcd division is trivial by coprimality. -/
theorem fracNorm_spec (t : ℤ × List ℚ × List ℚ)
    (hn : trim t.2.1 = t.2.1) (hd : trim t.2.2 = t.2.2)
    (hnne : t.2.1 ≠ []) (hdne : t.2.2 ≠ [])
    (hnc : constCoeff t.2.1 ≠ 0) (hdc : constCoeff t.2.2 ≠ 0)
    (hcop : IsCoprime (toP t.2.1) (toP t.2.2)) :
    fracNorm t = (t.1, polySmul (qInv (constCoeff t.2.2)) t.2.1,
      polySmul (qInv (constCoeff t.2.2)) t.2.2) ∧
    trim (fracNorm t).2.1 = (fracNorm t).2.1 ∧
    trim (fracNorm t).2.2 = (fracNorm t).2.2 ∧
    (fracNorm t).2.1 ≠ [] ∧
    (fracNorm t).2.2 ≠ [] ∧
    constCoeff (fracNorm t).2.1 ≠ 0 ∧
    constCoeff (fracNorm t).2.2 = 1 ∧
    IsCoprime (toP (fracNorm t).2.1) (toP (fracNorm t).2.2) ∧
    (fracNorm t).1 = t.1 ∧
    (fracNorm t).2.2.length = t.2.2.length := by
  have hfi : qInv (constCoeff t.2.2) ≠ 0 := by
    rw [qInv_eq]
    exact inv_ne_zero hdc
  have hcop2 : IsCoprime (toP (polySmul (qInv (constCoeff t.2.2)) t.2.1))
      (toP (polySmul (qInv (constCoeff t.2.2)) t.2.2)) :=
    isCoprime_smul_both _ hfi _ _ hcop
  have hd1canon : trim (polySmul (qInv (constCoeff t.2.2)) t.2.2) =
      polySmul (qInv (constCoeff t.2.2)) t.2.2 := canon_polySmul _ _
  have hd1ne : polySmul (qInv (constCoeff t.2.2)) t.2.2 ≠ [] :=
    polySmul_ne_nil _ hfi _ hd hdne
  have hg1 : polyGcd (polySmul (qInv (constCoeff t.2.2)) t.2.1)
      (polySmul (qInv (constCoeff t.2.2)) t.2.2) = [1] :=
    polyGcd_eq_one _ _ hcop2 (by rwa [hd1canon])
  have he : fracNorm t = (t.1, polySmul (qInv (constCoeff t.2.2)) t.2.1,
      polySmul (qInv (constCoeff t.2.2)) t.2.2) := by
    show (t.1, polyQuo (polySmul (qInv (constCoeff t.2.2)) t.2.1)
        (polyGcd (polySmul (qInv (constCoeff t.2.2)) t.2.1)
          (polySmul (qInv (constCoeff t.2.2)) t.2.2)),
      polyQuo (polySmul (qInv (constCoeff t.2.2)) t.2.2)
        (polyGcd (polySmul (qInv (constCoeff t.2.2)) t.2.1)
          (polySmul (qInv (constCoeff t.2.2)) t.2.2))) = _
    rw [hg1, polyQuo_one, polyQuo_one, canon_polySmul, canon_polySmul]
  rw [he]
  refine ⟨rfl, canon_polySmul _ _, hd1canon,
    polySmul_ne_nil _ hfi _ hn hnne, hd1ne, ?_, ?_, hcop2, rfl,
    polySmul_len _ hfi _ hd⟩
  · rw [constCoeff_polySmul, qInv_eq]
    exact mul_ne_zero (inv_ne_zero hdc) hnc
  · rw [constCoeff_polySmul, qInv_eq, inv_mul_cancel₀ hdc]

/-- Projection equations for `fracPack`. -/
theorem fracPack_num (t : ℤ × List ℚ × List ℚ) :
    (fracPack t).num = if 0 ≤ t.1 then shiftUp t.1.toNat t.2.1 else t.2.1 := rfl

theorem fracPack_den (t : ℤ × List ℚ × List ℚ) :
    (fracPack t).den = if 0 ≤ t.1 then t.2.2 else shiftUp (-t.1).toNat t.2.2 := rfl

theorem fracPack_off (t : ℤ × List ℚ × List ℚ) :
    (fracPack t).off = ZInf.int t.1 := rfl

theorem fracPack_deg (t : ℤ × List ℚ × List ℚ) :
    (fracPack t).deg = t.2.2.length - 1 := rfl

/-- Shape facts for the assembled record. -/
theorem fracPack_spec (t : ℤ × List ℚ × List ℚ)
    (hn : trim t.2.1 = t.2.1) (hd : trim t.2.2 = t.2.2)
    (hnne : t.2.1 ≠ []) (hdne : t.2.2 ≠ [])
    (hnc : constCoeff t.2.1 ≠ 0) (hdc : constCoeff t.2.2 = 1)
    (hcop : IsCoprime (toP t.2.1) (toP t.2.2)) :
    trim (fracPack t).num = (fracPack t).num ∧
    trim (fracPack t).den = (fracPack t).den ∧
    (fracPack t).num ≠ [] ∧
    (fracPack t).den ≠ [] ∧
    IsCoprime (toP (fracPack t).num) (toP (fracPack t).den) := by
  have hdc0 : constCoeff t.2.2 ≠ 0 := by rw [hdc]; exact one_ne_zero
  rw [fracPack_num, fracPack_den]
  by_cases ho : 0 ≤ t.1
  · rw [if_pos ho, if_pos ho]
    refine ⟨canon_shiftUp _ _, hd, shiftUp_ne_nil _ _ hn hnne, hdne, ?_⟩
    rw [toP_shiftUp]
    exact IsCoprime.mul_left (isCoprime_Xpow_toP _ t.2.2 hdc0) hcop
  · rw [if_neg ho, if_neg ho]
    refine ⟨hn, canon_shiftUp _ _, hnne, shiftUp_ne_nil _ _ hd hdne, ?_⟩
    rw [toP_shiftUp]
    exact IsCoprime.mul_right (isCoprime_Xpow_toP _ t.2.1 hnc).symm hcop

theorem mkCF_eq (num den : List ℚ) :
    mkCF num den =
      (if (sageReduce num den).2 = [1] then polyBranch (sageReduce num den).1
       else fracPack (fracNorm (fracShift (sageReduce num den)))) := rfl

theorem polyBranch_eq (u : List ℚ) :
    polyBranch u =
      (if u = [] then ⟨[], [1], ZInf.top, 0, [], [0], []⟩
       else ⟨u, [1], ZInf.int (polyVal u), 0, [],
         shiftDown (polyVal u) u, []⟩) := rfl

/-- The full invariant bundle for the outputs of the canonicalizer. -/
theorem mkCF_spec (num den : List ℚ) (hd : trim den ≠ []) :
    trim (mkCF num den).num = (mkCF num den).num ∧
    trim (mkCF num den).den = (mkCF num den).den ∧
    (mkCF num den).den ≠ [] ∧
    polyGcd (mkCF num den).num (mkCF num den).den = [1] ∧
    ((mkCF num den).den = [1] ∨ 2 ≤ (mkCF num den).den.length) ∧
    ((mkCF num den).den = [1] → polyBranch (mkCF num den).num = mkCF num den) ∧
    ((mkCF num den).off = ZInf.top → (mkCF num den).num = []) ∧
    (∀ o : ℤ, (mkCF num den).off = ZInf.int o → 0 ≤ o →
      constCoeff (mkCF num den).den = 1) ∧
    (∀ o : ℤ, (mkCF num den).off = ZInf.int o → o < 0 →
      (mkCF num den).den =
        shiftUp (-o).toNat (shiftDown (-o).toNat (mkCF num den).den) ∧
      constCoeff (shiftDown (-o).toNat (mkCF num den).den) = 1) ∧
    ((mkCF num den).num = [] → (mkCF num den).den = [1]) ∧
    ((mkCF num den).deg ≠ 0 → ∃ o : ℤ, (mkCF num den).off = ZInf.int o) := by
  obtain ⟨hr1, hr2, hr3, hr4, hr5⟩ := sageReduce_spec num den hd
  by_cases hp : (sageReduce num den).2 = [1]
  · rw [mkCF_eq, if_pos hp]
    by_cases hq : (sageReduce num den).1 = []
    · rw [polyBranch_eq, if_pos hq]
      refine ⟨rfl, by decide, by decide, by decide, Or.inl rfl, ?_, fun _ => rfl,
        fun o h _ => rfl, fun o h ho => ?_, fun _ => rfl, fun h => absurd rfl h⟩
      · intro _
        rw [polyBranch_eq, if_pos rfl]
      · exact absurd h (by intro h2; exact ZInf.noConfusion h2)
    · rw [polyBranch_eq, if_neg hq]
      refine ⟨hr1, show trim ([1] : List ℚ) = [1] by decide,
        show ([1] : List ℚ) ≠ [] by decide, ?_, Or.inl rfl, ?_, ?_,
        fun o h _ => rfl, ?_, fun h => absurd h hq, fun h => absurd rfl h⟩
      · exact polyGcd_eq_one _ _ (by rw [toP_one]; exact isCoprime_one_right)
          (show trim ([1] : List ℚ) ≠ [] by decide)
      · intro _
        rw [polyBranch_eq, if_neg hq]
      · intro h
        exact ZInf.noConfusion h
      · intro o h ho
        exfalso
        have h2 : (polyVal (sageReduce num den).1 : ℤ) = o := by
          injection h
        omega
  · rw [mkCF_eq, if_neg hp]
    have hlen2 : 2 ≤ (sageReduce num den).2.length := by
      rcases hr4 with h | h
      · exact absurd h hp
      · exact h
    have hne1 : (sageReduce num den).1 ≠ [] := hr5 hp
    have hne2 : (sageReduce num den).2 ≠ [] := by
      intro h0
      rw [h0] at hlen2
      simp at hlen2
    obtain ⟨ha1, ha2, ha3, ha4, ha5, ha6, ha7, ha8, ha9⟩ :=
      fracShift_spec (sageReduce num den) hr1 hr2 hne1 hne2 hr3
    obtain ⟨hb0, hb1, hb2, hb3, hb4, hb5, hb6, hb7, hb8, hb9⟩ :=
      fracNorm_spec (fracShift (sageReduce num den)) ha1 ha2 ha3 ha4 ha5 ha6 ha7
    obtain ⟨hc1, hc2, hc3, hc4, hc5⟩ :=
      fracPack_spec (fracNorm (fracShift (sageReduce num den))) hb1 hb2 hb3 hb4
        hb5 hb6 hb7
    have hcanon_den : trim (fracPack (fracNorm (fracShift (sageReduce num den)))).den
        = (fracPack (fracNorm (fracShift (sageReduce num den)))).den := hc2
    have hgcd1 : polyGcd (fracPack (fracNorm (fracShift (sageReduce num den)))).num
        (fracPack (fracNorm (fracShift (sageReduce num den)))).den = [1] :=
      polyGcd_eq_one _ _ hc5 (by rw [hc2]; exact hc4)
    have hdlen : 2 ≤ (fracPack (fracNorm (fracShift (sageReduce num den)))).den.length := by
      rw [fracPack_den]
      by_cases ho : 0 ≤ (fracNorm (fracShift (sageReduce num den))).1
      · rw [if_pos ho]
        have h1 : (fracNorm (fracShift (sageReduce num den))).2.2.length =
            (fracShift (sageReduce num den)).2.2.length := hb9
        have h2 : (fracShift (sageReduce num den)).2.2 = (sageReduce num den).2 := by
          apply ha8
          rwa [hb8] at ho
        rw [h1, h2]
        exact hlen2
      · rw [if_neg ho]
        push_neg at ho
        have hk : 1 ≤ (-(fracNorm (fracShift (sageReduce num den))).1).toNat := by
          rw [hb8]
          apply ha9
          rwa [hb8] at ho
        rw [shiftUp_len _ _ hb2 hb4]
        have h3 : (fracNorm (fracShift (sageReduce num den))).2.2.length ≠ 0 := by
          intro h0
          exact hb4 (List.length_eq_zero.mp h0)
        omega
    refine ⟨hc1, hc2, hc4, hgcd1, Or.inr hdlen, ?_, ?_, ?_, ?_, ?_, ?_⟩
    · intro h0
      exfalso
      rw [h0] at hdlen
      simp at hdlen
    · intro h
      rw [fracPack_off] at h
      exact ZInf.noConfusion h
    · intro o h ho
      rw [fracPack_off] at h
      have h2 : (fracNorm (fracShift (sageReduce num den))).1 = o := by injection h
      rw [fracPack_den, if_pos (by omega)]
      exact hb6
    · intro o h ho
      rw [fracPack_off] at h
      have h2 : (fracNorm (fracShift (sageReduce num den))).1 = o := by injection h
      have hneg : ¬ (0 ≤ (fracNorm (fracShift (sageReduce num den))).1) := by omega
      rw [fracPack_den, if_neg hneg, h2]
      rw [shiftDown_shiftUp _ _ hb2]
      exact ⟨rfl, hb6⟩
    · intro h0
      exact absurd h0 hc3
    · intro _
      exact ⟨(fracNorm (fracShift (sageReduce num den))).1, fracPack_off _⟩


/-! ## The claims -/

/-- Equation lemma for `getItemInt` once the stored offset is known finite. -/
theorem getItemInt_int (s : CFS) (o : ℤ) (k : ℤ) (h : s.off = ZInf.int o) :
    getItemInt s k =
      if o ≤ k ∧ k < o + (s.a.length : ℤ) then coeffL s.a (k - o).toNat
      else if s.deg = 0 then 0
      else if k < o then coeffZ (polyDivMod s.num s.den).1 (k - o)
      else qAdd (coeffZ (polyDivMod s.num s.den).1 (k - o))
        (coeffL (matVecM (matPowM (companionM s.c) s.deg (k - o).toNat)
          (seedVec s (polyDivMod s.num s.den).1)) (s.deg - 1)) := by
  unfold getItemInt
  rw [h]

theorem rowLin_fib_one (a b c d : ℚ) :
    rowLin [1, 1] [[a, b], [c, d]] =
      [qAdd (qMul 1 a) (qMul 1 c), qAdd (qMul 1 b) (qMul 1 d)] := rfl

theorem rowLin_fib_two (a b c d : ℚ) :
    rowLin [1, 0] [[a, b], [c, d]] =
      [qAdd (qMul 1 a) (qMul 0 c), qAdd (qMul 1 b) (qMul 0 d)] := rfl

/-- One product with the Fibonacci companion matrix, in closed form. -/
theorem matMul_fib (a b c d : ℚ) :
    matMulM [[1, 1], [1, 0]] [[a, b], [c, d]] = [[a + c, b + d], [a, b]] := by
  show [rowLin [1, 1] [[a, b], [c, d]], rowLin [1, 0] [[a, b], [c, d]]] = _
  rw [rowLin_fib_one, rowLin_fib_two]
  simp [qAdd_eq, qMul_eq]

/-- A 2 by 2 matrix applied to a 2-vector, in closed form. -/
theorem matVec_pair (a b c d x y : ℚ) :
    matVecM [[a, b], [c, d]] [x, y] = [a * x + b * y, c * x + d * y] := by
  have h : matVecM [[a, b], [c, d]] [x, y] =
      [qAdd (qMul a x) (qAdd (qMul b y) 0), qAdd (qMul c x) (qAdd (qMul d y) 0)] := rfl
  rw [h]
  simp [qAdd_eq, qMul_eq]

theorem matPow_fib_shape (m : ℕ) : ∃ a b c d : ℚ,
    matPowM [[1, 1], [1, 0]] 2 m = [[a, b], [c, d]] := by
  induction m with
  | zero => exact ⟨1, 0, 0, 1, by decide⟩
  | succ n ih =>
    obtain ⟨a, b, c, d, h⟩ := ih
    refine ⟨a + c, b + d, a, b, ?_⟩
    show matMulM [[1, 1], [1, 0]] (matPowM [[1, 1], [1, 0]] 2 n) = _
    rw [h, matMul_fib]

/-- Stepping the Fibonacci companion power against the seed `[1, 1]`. -/
theorem fibVec_step (m : ℕ) : ∃ x y : ℚ,
    matVecM (matPowM [[1, 1], [1, 0]] 2 m) [1, 1] = [x, y] ∧
    matVecM (matPowM [[1, 1], [1, 0]] 2 (m + 1)) [1, 1] = [x + y, x] := by
  obtain ⟨a, b, c, d, h⟩ := matPow_fib_shape m
  refine ⟨a + b, c + d, ?_, ?_⟩
  · rw [h, matVec_pair]
    simp
  · show matVecM (matMulM [[1, 1], [1, 0]] (matPowM [[1, 1], [1, 0]] 2 m)) [1, 1] = _
    rw [h, matMul_fib, matVec_pair]
    simp
    ring

/-- Past the stored window, the Fibonacci term is the bottom entry of the
companion power applied to the seed. -/
theorem fibo_matrix_term (n : ℕ) (h : 3 ≤ n) :
    getItemInt (fromRecurrence [1, 1] [0, 1]) (n : ℤ) =
      coeffL (matVecM (matPowM [[1, 1], [1, 0]] 2 (n - 1)) [1, 1]) 1 := by
  have hf : fromRecurrence [1, 1] [0, 1] =
      ⟨[0, 1], [1, -1, -1], ZInf.int 1, 2, [1, 1], [1, 1], [1, 1]⟩ := by decide
  rw [hf, getItemInt_int _ 1 _ rfl]
  rw [if_neg (by push_neg; intro _; show (3:ℤ) ≤ _; omega)]
  rw [if_neg (by decide)]
  rw [if_neg (by omega)]
  have hdm : polyDivMod [0, 1] ([1, -1, -1] : List ℚ) = ([], [0, 1]) := by decide
  rw [hdm]
  have hwp : coeffZ ([] : List ℚ) ((n : ℤ) - 1) = 0 := by
    unfold coeffZ
    split
    · rfl
    · rfl
  rw [hwp, qAdd_eq, zero_add]
  have hsv : seedVec ⟨[0, 1], [1, -1, -1], ZInf.int 1, 2, [1, 1], [1, 1], [1, 1]⟩
      ([] : List ℚ) = [1, 1] := by decide
  rw [hsv]
  have hcm : companionM ([1, 1] : List ℚ) = [[1, 1], [1, 0]] := by decide
  rw [hcm]
  have hto : ((n : ℤ) - 1).toNat = n - 1 := by omega
  rw [hto]
  rfl

set_option maxRecDepth 40000 in
/-- C1: for the sequence built via `from_recurrence([1,1],[0,1])` (Fibonacci),
term 137 equals 19134702400093278081449423917, and for every integer
`n ≥ 0`, `term(n+2) = term(n) + term(n+1)`. -/
theorem claim_C1 :
    getItemInt (fromRecurrence [1, 1] [0, 1]) 137 =
      (19134702400093278081449423917 : ℚ) ∧
    ∀ n : ℕ, getItemInt (fromRecurrence [1, 1] [0, 1]) ((n : ℤ) + 2) =
      getItemInt (fromRecurrence [1, 1] [0, 1]) (n : ℤ) +
      getItemInt (fromRecurrence [1, 1] [0, 1]) ((n : ℤ) + 1) := by
  constructor
  · decide
  · intro n
    match n with
    | 0 =>
      have h2 : getItemInt (fromRecurrence [1, 1] [0, 1]) (((0:ℕ):ℤ) + 2) = 1 := by decide
      have h0 : getItemInt (fromRecurrence [1, 1] [0, 1]) ((0:ℕ):ℤ) = 0 := by decide
      have h1 : getItemInt (fromRecurrence [1, 1] [0, 1]) (((0:ℕ):ℤ) + 1) = 1 := by decide
      rw [h2, h0, h1]
      norm_num
    | 1 =>
      have h2 : getItemInt (fromRecurrence [1, 1] [0, 1]) (((1:ℕ):ℤ) + 2) = 2 := by decide
      have h0 : getItemInt (fromRecurrence [1, 1] [0, 1]) ((1:ℕ):ℤ) = 1 := by decide
      have h1 : getItemInt (fromRecurrence [1, 1] [0, 1]) (((1:ℕ):ℤ) + 1) = 1 := by decide
      rw [h2, h0, h1]
      norm_num
    | 2 =>
      have h2 : getItemInt (fromRecurrence [1, 1] [0, 1]) (((2:ℕ):ℤ) + 2) = 3 := by decide
      have h0 : getItemInt (fromRecurrence [1, 1] [0, 1]) ((2:ℕ):ℤ) = 1 := by decide
      have h1 : getItemInt (fromRecurrence [1, 1] [0, 1]) (((2:ℕ):ℤ) + 1) = 2 := by decide
      rw [h2, h0, h1]
      norm_num
    | (m + 3) =>
      have e2 : ((m + 3 : ℕ) : ℤ) + 2 = ((m + 5 : ℕ) : ℤ) := by push_cast; ring
      have e1 : ((m + 3 : ℕ) : ℤ) + 1 = ((m + 4 : ℕ) : ℤ) := by push_cast; ring
      rw [e2, e1]
      rw [fibo_matrix_term (m + 5) (by omega), fibo_matrix_term (m + 4) (by omega),
        fibo_matrix_term (m + 3) (by omega)]
      have h2 : m + 5 - 1 = (m + 2) + 2 := by omega
      have h1 : m + 4 - 1 = (m + 2) + 1 := by omega
      have h0 : m + 3 - 1 = m + 2 := by omega
      rw [h2, h1, h0]
      obtain ⟨x, y, ha, hb⟩ := fibVec_step (m + 2)
      obtain ⟨x2, y2, ha2, hb2⟩ := fibVec_step (m + 2 + 1)
      rw [ha2] at hb
      have hx2 : x2 = x + y := (List.cons.injEq _ _ _ _).mp hb |>.1
      have hy2 : y2 = x := by
        have := (List.cons.injEq _ _ _ _).mp hb |>.2
        exact ((List.cons.injEq _ _ _ _).mp this).1
      rw [hb2, ha, ha2]
      show x2 = y + y2
      rw [hy2, hx2]
      ring

/-- C2 (amended): for a sequence of positive degree and an integer index at
or past the stored window, the term is `wp + (M^(k-off) . V)[deg-1]` where
`V` is the FIRST `degree` entries of the stored terms, reversed (`seedVec`);
the spec's "last degree entries" (`seedVecSpec`) is refuted below. -/
theorem claim_C2 (s : CFS) (o k : ℤ) (hoff : s.off = ZInf.int o)
    (hdeg : s.deg ≠ 0) (hk : o + (s.a.length : ℤ) ≤ k) :
    getItemInt s k =
      qAdd (coeffZ (polyDivMod s.num s.den).1 (k - o))
        (coeffL (matVecM (matPowM (companionM s.c) s.deg (k - o).toNat)
          (seedVec s (polyDivMod s.num s.den).1)) (s.deg - 1)) := by
  rw [getItemInt_int s o k hoff]
  rw [if_neg (by push_neg; intro _; omega)]
  rw [if_neg hdeg]
  rw [if_neg (by omega)]

/-- Witness for C2 at the sequence of `(2-x)/(x-x^2-x^3)` and index 3. -/
theorem claim_C2_witness :
    getItemInt (mkCF [2, -1, 1] [0, 1, -1, -1]) 3 =
      qAdd (coeffZ (polyDivMod (mkCF [2, -1, 1] [0, 1, -1, -1]).num
          (mkCF [2, -1, 1] [0, 1, -1, -1]).den).1 (3 - (-1)))
        (coeffL (matVecM (matPowM (companionM (mkCF [2, -1, 1] [0, 1, -1, -1]).c)
            (mkCF [2, -1, 1] [0, 1, -1, -1]).deg ((3 - (-1) : ℤ)).toNat)
          (seedVec (mkCF [2, -1, 1] [0, 1, -1, -1])
            (polyDivMod (mkCF [2, -1, 1] [0, 1, -1, -1]).num
              (mkCF [2, -1, 1] [0, 1, -1, -1]).den).1))
          ((mkCF [2, -1, 1] [0, 1, -1, -1]).deg - 1)) :=
  claim_C2 (mkCF [2, -1, 1] [0, 1, -1, -1]) (-1) 3 (by decide) (by decide) (by decide)

/-- C2, the spec's words refuted: with the seed vector taken as the LAST
`degree` entries of the stored terms (as the spec says), the formula gives 14
at index 3 of the sequence of `(2-x)/(x-x^2-x^3)`, while the term is 7. -/
theorem claim_C2_cex :
    getItemInt (mkCF [2, -1, 1] [0, 1, -1, -1]) 3 = 7 ∧
    qAdd (coeffZ (polyDivMod (mkCF [2, -1, 1] [0, 1, -1, -1]).num
          (mkCF [2, -1, 1] [0, 1, -1, -1]).den).1 (3 - (-1)))
        (coeffL (matVecM (matPowM (companionM (mkCF [2, -1, 1] [0, 1, -1, -1]).c)
            (mkCF [2, -1, 1] [0, 1, -1, -1]).deg ((3 - (-1) : ℤ)).toNat)
          (seedVecSpec (mkCF [2, -1, 1] [0, 1, -1, -1])
            (polyDivMod (mkCF [2, -1, 1] [0, 1, -1, -1]).num
              (mkCF [2, -1, 1] [0, 1, -1, -1]).den).1))
          ((mkCF [2, -1, 1] [0, 1, -1, -1]).deg - 1)) = 14 := by
  constructor
  · decide
  · decide


theorem qInv_one : qInv 1 = 1 := by decide

theorem shiftUp_zero (u : List ℚ) (hu : trim u = u) : shiftUp 0 u = u := by
  show trim (List.replicate 0 0 ++ u) = u
  simpa using hu

theorem polyVal_of_const_ne (u : List ℚ) (h : constCoeff u ≠ 0) : polyVal u = 0 := by
  cases u with
  | nil => exact absurd rfl h
  | cons q t =>
    have hq : q ≠ 0 := h
    rw [polyVal, if_neg hq]

theorem constCoeff_shiftUp (m : ℕ) (u : List ℚ) (hu : trim u = u) (hne : u ≠ [])
    (hm : 1 ≤ m) : constCoeff (shiftUp m u) = 0 := by
  rw [shiftUp_of_canon m u hu hne]
  cases m with
  | zero => omega
  | succ p =>
    show coeffL ((0:ℚ) :: (List.replicate p 0 ++ u)) 0 = 0
    rfl

theorem sageReduce_fixed (N D : List ℚ) (hN : trim N = N) (hD : trim D = D)
    (hg : polyGcd N D = [1]) (hlen : D.length ≠ 1) : sageReduce N D = (N, D) := by
  show unitNorm (gcdReduce (trim N) (trim D)) = (N, D)
  rw [hN, hD]
  have h1 : gcdReduce N D = (N, D) := by
    unfold gcdReduce
    rw [if_pos hg]
  rw [h1]
  unfold unitNorm
  rw [if_neg hlen]

theorem sageReduce_one (N : List ℚ) (hN : trim N = N) : sageReduce N [1] = (N, [1]) := by
  show unitNorm (gcdReduce (trim N) (trim [1])) = _
  have ht : trim ([1] : List ℚ) = [1] := by decide
  rw [hN, ht]
  have hg : polyGcd N [1] = [1] :=
    polyGcd_eq_one N [1] (by rw [toP_one]; exact isCoprime_one_right) (by decide)
  have h1 : gcdReduce N [1] = (N, [1]) := by
    unfold gcdReduce
    rw [if_pos hg]
  rw [h1]
  unfold unitNorm
  rw [if_pos (show (([1] : List ℚ)).length = 1 from rfl)]
  have hc : constCoeff ([1] : List ℚ) = 1 := rfl
  rw [hc, qInv_one, polySmul_one N hN]

theorem fracNorm_fixed (t : ℤ × List ℚ × List ℚ)
    (hn : trim t.2.1 = t.2.1) (hd : trim t.2.2 = t.2.2) (hdne : t.2.2 ≠ [])
    (hdc : constCoeff t.2.2 = 1)
    (hcop : IsCoprime (toP t.2.1) (toP t.2.2)) : fracNorm t = t := by
  have he : fracNorm t = (t.1,
      polyQuo (polySmul (qInv (constCoeff t.2.2)) t.2.1)
        (polyGcd (polySmul (qInv (constCoeff t.2.2)) t.2.1)
          (polySmul (qInv (constCoeff t.2.2)) t.2.2)),
      polyQuo (polySmul (qInv (constCoeff t.2.2)) t.2.2)
        (polyGcd (polySmul (qInv (constCoeff t.2.2)) t.2.1)
          (polySmul (qInv (constCoeff t.2.2)) t.2.2))) := rfl
  rw [he, hdc, qInv_one, polySmul_one _ hn, polySmul_one _ hd]
  have hg : polyGcd t.2.1 t.2.2 = [1] := polyGcd_eq_one _ _ hcop (by rwa [hd])
  rw [hg, polyQuo_one, polyQuo_one, hn, hd]

theorem fracShift_pack (o : ℤ) (n2 d2 : List ℚ)
    (hn : trim n2 = n2) (hd : trim d2 = d2) (hnne : n2 ≠ []) (hdne : d2 ≠ [])
    (hnc : constCoeff n2 ≠ 0) (hdc : constCoeff d2 ≠ 0) :
    fracShift ((if 0 ≤ o then shiftUp o.toNat n2 else n2),
               (if 0 ≤ o then d2 else shiftUp (-o).toNat d2)) = (o, n2, d2) := by
  by_cases ho : 0 ≤ o
  · rw [if_pos ho, if_pos ho]
    by_cases ho0 : o = 0
    · subst ho0
      rw [show ((0:ℤ)).toNat = 0 from rfl, shiftUp_zero n2 hn]
      unfold fracShift
      rw [if_neg hnc, if_neg hdc]
    · have hm : 1 ≤ o.toNat := by omega
      have hc0 : constCoeff (shiftUp o.toNat n2) = 0 := constCoeff_shiftUp _ n2 hn hnne hm
      unfold fracShift
      rw [if_pos hc0]
      rw [polyVal_shiftUp o.toNat n2 hn hnc, shiftDown_shiftUp o.toNat n2 hn]
      have hoz : ((o.toNat : ℤ)) = o := by omega
      rw [hoz]
  · push_neg at ho
    rw [if_neg (by omega), if_neg (by omega)]
    have hm : 1 ≤ (-o).toNat := by omega
    have hcD : constCoeff (shiftUp (-o).toNat d2) = 0 := constCoeff_shiftUp _ d2 hd hdne hm
    unfold fracShift
    rw [if_neg hnc, if_pos hcD]
    rw [polyVal_shiftUp _ d2 hd hdc, shiftDown_shiftUp _ d2 hd]
    have hoz : -(((-o).toNat : ℤ)) = o := by omega
    rw [hoz]

/-- C4: canonicalization is idempotent; re-canonicalizing the stored
numerator/denominator pair of any constructed sequence reproduces the whole
stored state (numerator, denominator, offset, degree, recurrence
coefficients and all stored terms). -/
theorem claim_C4 (num den : List ℚ) (hd : trim den ≠ []) :
    mkCF (mkCF num den).num (mkCF num den).den = mkCF num den := by
  obtain ⟨hr1, hr2, hr3, hr4, hr5⟩ := sageReduce_spec num den hd
  by_cases hp : (sageReduce num den).2 = [1]
  · have hmk : mkCF num den = polyBranch (sageReduce num den).1 := by
      rw [mkCF_eq, if_pos hp]
    rw [hmk]
    by_cases hq : (sageReduce num den).1 = []
    · rw [polyBranch_eq, if_pos hq]
      decide
    · rw [polyBranch_eq, if_neg hq]
      show mkCF (sageReduce num den).1 [1] = _
      rw [mkCF_eq]
      rw [sageReduce_one _ hr1]
      rw [if_pos rfl]
      rw [polyBranch_eq, if_neg hq]
  · have hmk : mkCF num den = fracPack (fracNorm (fracShift (sageReduce num den))) := by
      rw [mkCF_eq, if_neg hp]
    rw [hmk]
    have hlen2 : 2 ≤ (sageReduce num den).2.length := by
      rcases hr4 with h | h
      · exact absurd h hp
      · exact h
    have hne1 : (sageReduce num den).1 ≠ [] := hr5 hp
    have hne2 : (sageReduce num den).2 ≠ [] := by
      intro h0
      rw [h0] at hlen2
      simp at hlen2
    obtain ⟨ha1, ha2, ha3, ha4, ha5, ha6, ha7, ha8, ha9⟩ :=
      fracShift_spec (sageReduce num den) hr1 hr2 hne1 hne2 hr3
    obtain ⟨hb0, hb1, hb2, hb3, hb4, hb5, hb6, hb7, hb8, hb9⟩ :=
      fracNorm_spec (fracShift (sageReduce num den)) ha1 ha2 ha3 ha4 ha5 ha6 ha7
    set t1 := fracNorm (fracShift (sageReduce num den)) with ht1
    obtain ⟨hc1, hc2, hc3, hc4, hc5⟩ := fracPack_spec t1 hb1 hb2 hb3 hb4 hb5 hb6 hb7
    have hb6ne : constCoeff t1.2.2 ≠ 0 := by rw [hb6]; exact one_ne_zero
    have hN : (fracPack t1).num =
        if 0 ≤ t1.1 then shiftUp t1.1.toNat t1.2.1 else t1.2.1 := fracPack_num t1
    have hD : (fracPack t1).den =
        if 0 ≤ t1.1 then t1.2.2 else shiftUp (-t1.1).toNat t1.2.2 := fracPack_den t1
    have hdlen : 2 ≤ (fracPack t1).den.length := by
      rw [hD]
      by_cases ho : 0 ≤ t1.1
      · rw [if_pos ho]
        have h1 : t1.2.2.length = (fracShift (sageReduce num den)).2.2.length := hb9
        have h2 : (fracShift (sageReduce num den)).2.2 = (sageReduce num den).2 := by
          apply ha8
          rwa [hb8] at ho
        rw [h1, h2]
        exact hlen2
      · rw [if_neg ho]
        push_neg at ho
        have hk : 1 ≤ (-t1.1).toNat := by
          rw [hb8]
          apply ha9
          rwa [hb8] at ho
        rw [shiftUp_len _ _ hb2 hb4]
        have h3 : t1.2.2.length ≠ 0 := fun h0 => hb4 (List.length_eq_zero.mp h0)
        omega
    have hDne1 : (fracPack t1).den ≠ [1] := by
      intro h0
      rw [h0] at hdlen
      simp at hdlen
    have hgcd1 : polyGcd (fracPack t1).num (fracPack t1).den = [1] :=
      polyGcd_eq_one _ _ hc5 (by rw [hc2]; exact hc4)
    have hlen1 : (fracPack t1).den.length ≠ 1 := by omega
    have hshift : fracShift ((fracPack t1).num, (fracPack t1).den) = t1 := by
      rw [hN, hD]
      rw [fracShift_pack t1.1 t1.2.1 t1.2.2 hb1 hb2 hb3 hb4 hb5 hb6ne]
    rw [mkCF_eq, sageReduce_fixed _ _ hc1 hc2 hgcd1 hlen1]
    rw [if_neg hDne1]
    rw [hshift]
    rw [fracNorm_fixed t1 hb1 hb2 hb4 hb6 hb7]

/-- Witness for C4 at the Fibonacci o.g.f. `x/(1-x-x^2)`. -/
theorem claim_C4_witness :
    mkCF (mkCF [0, 1] [1, -1, -1]).num (mkCF [0, 1] [1, -1, -1]).den =
      mkCF [0, 1] [1, -1, -1] :=
  claim_C4 [0, 1] [1, -1, -1] (by decide)


/-- C5 (amended): every constructed sequence stores a coprime
numerator/denominator pair; the denominator's constant term is 1 when the
stored offset is nonnegative, and when the offset is negative the
denominator factors as `x^(-offset)` times a polynomial with constant
term 1 (so its own constant term is 0, refuting the unconditional
claim). -/
theorem claim_C5 (num den : List ℚ) (hd : trim den ≠ []) :
    polyGcd (mkCF num den).num (mkCF num den).den = [1] ∧
    IsCoprime (toP (mkCF num den).num) (toP (mkCF num den).den) ∧
    (∀ o : ℤ, (mkCF num den).off = ZInf.int o → 0 ≤ o →
      constCoeff (mkCF num den).den = 1) ∧
    (∀ o : ℤ, (mkCF num den).off = ZInf.int o → o < 0 →
      (mkCF num den).den =
        shiftUp (-o).toNat (shiftDown (-o).toNat (mkCF num den).den) ∧
      constCoeff (shiftDown (-o).toNat (mkCF num den).den) = 1 ∧
      constCoeff (mkCF num den).den = 0) := by
  obtain ⟨h1, h2, h3, h4, h5, h6, h7, h8, h9, h10, h11⟩ := mkCF_spec num den hd
  refine ⟨h4, isCoprime_of_polyGcd_one _ _ h4, h8, ?_⟩
  intro o ho hlt
  obtain ⟨hfac, hone⟩ := h9 o ho hlt
  have hm : 1 ≤ (-o).toNat := by omega
  have hcanon : trim (shiftDown (-o).toNat (mkCF num den).den) =
      shiftDown (-o).toNat (mkCF num den).den := canon_shiftDown _ _ h2
  have hne : shiftDown (-o).toNat (mkCF num den).den ≠ [] := by
    intro h0
    rw [h0] at hone
    have h01 : (0 : ℚ) = 1 := by
      rw [← hone]
      rfl
    exact zero_ne_one h01
  refine ⟨hfac, hone, ?_⟩
  rw [hfac]
  exact constCoeff_shiftUp _ _ hcanon hne hm

/-- Witness for C5 at the Fibonacci o.g.f. -/
theorem claim_C5_witness :
    polyGcd (mkCF [0, 1] [1, -1, -1]).num (mkCF [0, 1] [1, -1, -1]).den = [1] ∧
    IsCoprime (toP (mkCF [0, 1] [1, -1, -1]).num)
      (toP (mkCF [0, 1] [1, -1, -1]).den) ∧
    (∀ o : ℤ, (mkCF [0, 1] [1, -1, -1]).off = ZInf.int o → 0 ≤ o →
      constCoeff (mkCF [0, 1] [1, -1, -1]).den = 1) ∧
    (∀ o : ℤ, (mkCF [0, 1] [1, -1, -1]).off = ZInf.int o → o < 0 →
      (mkCF [0, 1] [1, -1, -1]).den =
        shiftUp (-o).toNat (shiftDown (-o).toNat (mkCF [0, 1] [1, -1, -1]).den) ∧
      constCoeff (shiftDown (-o).toNat (mkCF [0, 1] [1, -1, -1]).den) = 1 ∧
      constCoeff (mkCF [0, 1] [1, -1, -1]).den = 0) :=
  claim_C5 [0, 1] [1, -1, -1] (by decide)

/-- C5 refuted as stated: for `(3+x^3)/x` the stored offset is `-1` and the
stored denominator is `x`, whose constant term is 0, not 1. -/
theorem claim_C5_cex :
    (mkCF [3, 0, 0, 1] [0, 1]).off = ZInf.int (-1) ∧
    constCoeff (mkCF [3, 0, 0, 1] [0, 1]).den = 0 := by decide

/-- C6 (amended): slice indexing agrees with
`[term(i) for i in range(start, stop, step)]` for nonnegative endpoints
(the source clamps through `slice.indices(max(start, stop) + 1)`, which
rewrites negative endpoints, refuting the unrestricted claim); in
particular the descending Fibonacci slice `(14, 4, -2)` gives
`[377, 144, 55, 21, 8]`. -/
theorem claim_C6 :
    (∀ (s : CFS) (start stop step : ℤ), 0 ≤ start → 0 ≤ stop →
      getItemSlice s start stop step =
        (pyRange start stop step).map (getItemInt s)) ∧
    getItemSlice (fromRecurrence [1, 1] [0, 1]) 14 4 (-2) =
      [377, 144, 55, 21, 8] := by
  constructor
  · intro s start stop step h1 h2
    show (pyRange (pyClamp start (max start stop + 1) (decide (step < 0)))
      (pyClamp stop (max start stop + 1) (decide (step < 0))) step).map
        (getItemInt s) = _
    have hms : start ≤ max start stop := le_max_left start stop
    have hmt : stop ≤ max start stop := le_max_right start stop
    have hb : pyClamp start (max start stop + 1) (decide (step < 0)) = start := by
      unfold pyClamp
      rw [if_neg (by omega), if_neg (by omega)]
    have he : pyClamp stop (max start stop + 1) (decide (step < 0)) = stop := by
      unfold pyClamp
      rw [if_neg (by omega), if_neg (by omega)]
    rw [hb, he]
  · decide

/-- C6 refuted for negative endpoints: the Fibonacci slice `(-2, 3, 1)`
returns `[1]` (the clamp turns `-2` into `2`), while
`[term(i) for i in range(-2, 3)]` is `[0, 0, 0, 1, 1]`. -/
theorem claim_C6_cex :
    getItemSlice (fromRecurrence [1, 1] [0, 1]) (-2) 3 1 = [1] ∧
    (pyRange (-2) 3 1).map (getItemInt (fromRecurrence [1, 1] [0, 1])) =
      [0, 0, 0, 1, 1] := by decide

/-- C7: with an odd sample count the Berlekamp-Massey strategy drops the
last sample, so `guess([1,2,4,8,9])` equals `guess([1,2,4,8])` and returns
the doubling sequence `1/(1-2x)`, whose terms 0..4 are `[1,2,4,8,16]`. -/
theorem claim_C7 :
    guessBm [1, 2, 4, 8, 9] = guessBm [1, 2, 4, 8] ∧
    guessBm [1, 2, 4, 8, 9] = GRes.found (mkCF [1] [1, -2]) ∧
    (List.range 5).map (fun i => getItemInt (mkCF [1] [1, -2]) (i : ℤ)) =
      [1, 2, 4, 8, 16] := by
  refine ⟨by decide, by decide, by decide⟩

/-- C8: each guessing strategy raises the sample-too-short error exactly
when the sample list is below its minimum length (6 for the kernel and
lattice strategies, 2 for Berlekamp-Massey). -/
theorem claim_C8 (samples : List ℚ) :
    (guessSage samples = GRes.raised ↔ samples.length < 6) ∧
    (guessPariCheck samples = GRes.raised ↔ samples.length < 6) ∧
    (guessBm samples = GRes.raised ↔ samples.length < 2) := by
  refine ⟨?_, ?_, ?_⟩
  · unfold guessSage
    by_cases h : samples.length < 6
    · rw [if_pos h]
      simp [h]
    · rw [if_neg h]
      constructor
      · intro hx
        dsimp only at hx
        split_ifs at hx
      · intro hx
        exact absurd hx h
  · unfold guessPariCheck
    by_cases h : samples.length < 6
    · rw [if_pos h]
      simp [h]
    · rw [if_neg h]
      constructor
      · intro hx
        exact GRes.noConfusion hx
      · intro hx
        exact absurd hx h
  · unfold guessBm
    by_cases h : samples.length < 2
    · rw [if_pos h]
      simp [h]
    · rw [if_neg h]
      constructor
      · intro hx
        exact GRes.noConfusion hx
      · intro hx
        exact absurd hx h

/-- C9 (amended): when the reduced denominator is a unit, the polynomial
branch stores degree 0, no recurrence coefficients, denominator one, offset
the valuation of the (reduced) numerator with the shifted coefficient list
as terms -- except that the zero polynomial stores offset plus infinity
(not 0, as the spec words it) and the single term `[0]`. -/
theorem claim_C9 (num den : List ℚ) (hp : (sageReduce num den).2 = [1]) :
    (mkCF num den).deg = 0 ∧ (mkCF num den).c = [] ∧ (mkCF num den).den = [1] ∧
    ((sageReduce num den).1 ≠ [] →
      (mkCF num den).off = ZInf.int (polyVal (sageReduce num den).1) ∧
      (mkCF num den).a =
        shiftDown (polyVal (sageReduce num den).1) (sageReduce num den).1) ∧
    ((sageReduce num den).1 = [] →
      (mkCF num den).off = ZInf.top ∧ (mkCF num den).a = [0]) := by
  have hmk : mkCF num den = polyBranch (sageReduce num den).1 := by
    rw [mkCF_eq, if_pos hp]
  rw [hmk, polyBranch_eq]
  by_cases hq : (sageReduce num den).1 = []
  · rw [if_pos hq]
    exact ⟨rfl, rfl, rfl, fun h => absurd hq h, fun _ => ⟨rfl, rfl⟩⟩
  · rw [if_neg hq]
    exact ⟨rfl, rfl, rfl, fun _ => ⟨rfl, rfl⟩, fun h => absurd h hq⟩

/-- Witness for C9 at the polynomial `2x^2`. -/
theorem claim_C9_witness :
    (mkCF [0, 0, 2] [1]).deg = 0 ∧ (mkCF [0, 0, 2] [1]).c = [] ∧
    (mkCF [0, 0, 2] [1]).den = [1] ∧
    ((sageReduce [0, 0, 2] [1]).1 ≠ [] →
      (mkCF [0, 0, 2] [1]).off = ZInf.int (polyVal (sageReduce [0, 0, 2] [1]).1) ∧
      (mkCF [0, 0, 2] [1]).a =
        shiftDown (polyVal (sageReduce [0, 0, 2] [1]).1)
          (sageReduce [0, 0, 2] [1]).1) ∧
    ((sageReduce [0, 0, 2] [1]).1 = [] →
      (mkCF [0, 0, 2] [1]).off = ZInf.top ∧ (mkCF [0, 0, 2] [1]).a = [0]) :=
  claim_C9 [0, 0, 2] [1] (by decide)

/-- C9 refuted for the zero polynomial: the stored offset is plus infinity,
not 0, and the stored term list is `[0]`. -/
theorem claim_C9_cex :
    (mkCF [] [1]).off = ZInf.top ∧ (mkCF [] [1]).off ≠ ZInf.int 0 ∧
    (mkCF [] [1]).a = [0] := by decide

set_option maxRecDepth 100000 in
/-- C10 refuted: on the samples `[1,1,1,2,3,5,8,13]` the kernel strategy
returns a sequence (its o.g.f. is `(1-x^2)/(1-x-x^2)`, which does expand to
the samples), but the returned sequence's stored remainder-terms window is
read from the wrong power, so its term at index 3 is 3 while the sample
there is 2. -/
theorem claim_C10 :
    guessSage [1, 1, 1, 2, 3, 5, 8, 13] = GRes.found
      ⟨[1, 0, -1], [1, -1, -1], ZInf.int 0, 2, [1, 1], [1, 1, 1], [1, 1]⟩ ∧
    getItemInt ⟨[1, 0, -1], [1, -1, -1], ZInf.int 0, 2, [1, 1], [1, 1, 1], [1, 1]⟩
      3 = 3 ∧
    coeffL [1, 1, 1, 2, 3, 5, 8, 13] 3 = 2 := by
  refine ⟨by decide, by decide, by decide⟩


/-- The stored denominator always has lowest nonzero coefficient 1, at the
power `-offset` when the offset is negative and at power 0 otherwise. -/
theorem mkCF_lowest_one (num den : List ℚ) (hd : trim den ≠ []) :
    ∃ m : ℕ, (mkCF num den).den = shiftUp m (shiftDown m (mkCF num den).den) ∧
      constCoeff (shiftDown m (mkCF num den).den) = 1 := by
  obtain ⟨h1, h2, h3, h4, h5, h6, h7, h8, h9, h10, h11⟩ := mkCF_spec num den hd
  cases hoff : (mkCF num den).off with
  | top =>
    have hnum := h7 hoff
    have hden := h10 hnum
    refine ⟨0, ?_, ?_⟩
    · rw [hden]
      decide
    · rw [hden]
      decide
  | int o =>
    by_cases ho : 0 ≤ o
    · refine ⟨0, ?_, ?_⟩
      · show (mkCF num den).den = shiftUp 0 (shiftDown 0 (mkCF num den).den)
        rw [show shiftDown 0 (mkCF num den).den = (mkCF num den).den from rfl]
        exact (shiftUp_zero _ h2).symm
      · show constCoeff (shiftDown 0 (mkCF num den).den) = 1
        rw [show shiftDown 0 (mkCF num den).den = (mkCF num den).den from rfl]
        exact h8 o hoff ho
    · push_neg at ho
      obtain ⟨hsh, hc⟩ := h9 o hoff ho
      exact ⟨(-o).toNat, hsh, hc⟩

open Polynomial in
theorem den_decomp (num den : List ℚ) (hd : trim den ≠ []) :
    ∃ (m : ℕ) (E : Polynomial ℚ), toP (mkCF num den).den = X ^ m * E ∧
      E.coeff 0 = 1 := by
  obtain ⟨m, hsh, hc⟩ := mkCF_lowest_one num den hd
  refine ⟨m, toP (shiftDown m (mkCF num den).den), ?_, ?_⟩
  · conv_lhs => rw [hsh]
    rw [toP_shiftUp]
  · rw [toP_coeff]
    exact hc

open Polynomial in
theorem Xpow_unit_one (m1 m2 : ℕ) (E1 E2 : Polynomial ℚ) (c : ℚ)
    (h1 : E1.coeff 0 = 1) (h2 : E2.coeff 0 = 1) (hc : c ≠ 0)
    (heq : X ^ m2 * E2 = X ^ m1 * E1 * C c) : c = 1 ∧ m1 = m2 := by
  have hL : ∀ d : ℕ, (X ^ m2 * E2).coeff d =
      if m2 ≤ d then E2.coeff (d - m2) else 0 := by
    intro d
    rw [mul_comm, Polynomial.coeff_mul_X_pow']
  have hR : ∀ d : ℕ, (X ^ m1 * E1 * C c).coeff d =
      (if m1 ≤ d then E1.coeff (d - m1) else 0) * c := by
    intro d
    rw [Polynomial.coeff_mul_C, mul_comm (X ^ m1) E1, Polynomial.coeff_mul_X_pow']
  have hm2 : (X ^ m2 * E2).coeff m2 = 1 := by
    rw [hL m2, if_pos le_rfl, Nat.sub_self, h2]
  have hle1 : m1 ≤ m2 := by
    by_contra hgt
    have := hm2
    rw [heq, hR m2, if_neg hgt, zero_mul] at this
    exact one_ne_zero this.symm
  have hm1 : (X ^ m1 * E1 * C c).coeff m1 = c := by
    rw [hR m1, if_pos le_rfl, Nat.sub_self, h1, one_mul]
  have hle2 : m2 ≤ m1 := by
    by_contra hgt
    have := hm1
    rw [← heq, hL m1, if_neg hgt] at this
    exact hc this.symm
  have hmm : m1 = m2 := le_antisymm hle1 hle2
  refine ⟨?_, hmm⟩
  have := hm2
  rw [heq, hR m2, if_pos hle1, hmm, Nat.sub_self, h1, one_mul] at this
  exact this

open Polynomial in
theorem mkCF_den_eq_of_assoc (n1 d1 n2 d2 : List ℚ) (hd1 : trim d1 ≠ [])
    (hd2 : trim d2 ≠ [])
    (c : ℚ) (hc : c ≠ 0)
    (heq : toP (mkCF n2 d2).den = toP (mkCF n1 d1).den * C c) :
    (mkCF n1 d1).den = (mkCF n2 d2).den := by
  obtain ⟨m1, E1, hE1, hE1c⟩ := den_decomp n1 d1 hd1
  obtain ⟨m2, E2, hE2, hE2c⟩ := den_decomp n2 d2 hd2
  have heq2 : X ^ m2 * E2 = X ^ m1 * E1 * C c := by
    rw [← hE1, ← hE2]
    exact heq
  obtain ⟨hc1, -⟩ := Xpow_unit_one m1 m2 E1 E2 c hE1c hE2c hc heq2
  subst hc1
  have h3 : toP (mkCF n2 d2).den = toP (mkCF n1 d1).den := by
    rw [heq, map_one, mul_one]
  obtain ⟨-, hA2, -, -, -, -, -, -, -, -, -⟩ := mkCF_spec n1 d1 hd1
  obtain ⟨-, hB2, -, -, -, -, -, -, -, -, -⟩ := mkCF_spec n2 d2 hd2
  exact (toP_inj _ _ hB2 hA2 h3).symm

open Polynomial in
/-- C3: equality of two constructed sequences holds exactly when their
canonical numerator/denominator pairs coincide; and the sequences of
`x/(1-x-x^2)` and of the polynomial `x+x^2+2x^3+3x^4` share their first five
terms yet compare unequal. -/
theorem claim_C3 :
    (∀ n1 d1 n2 d2 : List ℚ, trim d1 ≠ [] → trim d2 ≠ [] →
      (ogfEq (mkCF n1 d1) (mkCF n2 d2) ↔
        (mkCF n1 d1).num = (mkCF n2 d2).num ∧
        (mkCF n1 d1).den = (mkCF n2 d2).den)) ∧
    ((List.range 5).map (fun i => getItemInt (mkCF [0, 1] [1, -1, -1]) (i : ℤ)) =
      (List.range 5).map (fun i => getItemInt (mkCF [0, 1, 1, 2, 3] [1]) (i : ℤ)) ∧
     ¬ ogfEq (mkCF [0, 1] [1, -1, -1]) (mkCF [0, 1, 1, 2, 3] [1])) := by
  constructor
  · intro n1 d1 n2 d2 hd1 hd2
    constructor
    · intro heq
      have ht : toP (mkCF n1 d1).num * toP (mkCF n2 d2).den =
          toP (mkCF n2 d2).num * toP (mkCF n1 d1).den := by
        have h0 := congrArg toP heq
        rwa [toP_polyMul, toP_polyMul] at h0
      obtain ⟨hA1, hA2, hA3, hA4, -, -, -, -, -, hA10, -⟩ := mkCF_spec n1 d1 hd1
      obtain ⟨hB1, hB2, hB3, hB4, -, -, -, -, -, hB10, -⟩ := mkCF_spec n2 d2 hd2
      have hAcop := isCoprime_of_polyGcd_one _ _ hA4
      have hBcop := isCoprime_of_polyGcd_one _ _ hB4
      have hAdne : toP (mkCF n1 d1).den ≠ 0 := toP_ne_zero _ hA2 hA3
      have hBdne : toP (mkCF n2 d2).den ≠ 0 := toP_ne_zero _ hB2 hB3
      by_cases hz : (mkCF n1 d1).num = []
      · have hz0 : toP (mkCF n1 d1).num = 0 := by
          rw [hz]
          rfl
        have h2 : toP (mkCF n2 d2).num * toP (mkCF n1 d1).den = 0 := by
          rw [← ht, hz0, zero_mul]
        have h3 : toP (mkCF n2 d2).num = 0 :=
          (mul_eq_zero.mp h2).resolve_right hAdne
        have hz2 : (mkCF n2 d2).num = [] := by
          rw [toP_eq_zero_iff] at h3
          rwa [hB1] at h3
        rw [hz, hz2, hA10 hz, hB10 hz2]
        exact ⟨rfl, rfl⟩
      · have hz0 : toP (mkCF n1 d1).num ≠ 0 := toP_ne_zero _ hA1 hz
        have hdvd1 : toP (mkCF n1 d1).den ∣ toP (mkCF n2 d2).den := by
          apply IsCoprime.dvd_of_dvd_mul_left hAcop.symm
          exact ⟨toP (mkCF n2 d2).num, by rw [ht]; ring⟩
        have hdvd2 : toP (mkCF n2 d2).den ∣ toP (mkCF n1 d1).den := by
          apply IsCoprime.dvd_of_dvd_mul_left hBcop.symm
          exact ⟨toP (mkCF n1 d1).num, by rw [← ht]; ring⟩
        obtain ⟨u, hu⟩ := associated_of_dvd_dvd hdvd1 hdvd2
        obtain ⟨c, hcu, hcC⟩ := Polynomial.isUnit_iff.mp u.isUnit
        have hc0 : c ≠ 0 := IsUnit.ne_zero hcu
        have hden : (mkCF n1 d1).den = (mkCF n2 d2).den := by
          apply mkCF_den_eq_of_assoc n1 d1 n2 d2 hd1 hd2 c hc0
          rw [← hu, hcC]
        refine ⟨?_, hden⟩
        have hcan : toP (mkCF n1 d1).num * toP (mkCF n1 d1).den =
            toP (mkCF n2 d2).num * toP (mkCF n1 d1).den := by
          conv_lhs => rw [show toP (mkCF n1 d1).den = toP (mkCF n2 d2).den from by rw [hden]]
          exact ht
        have hnum := mul_right_cancel₀ hAdne hcan
        exact toP_inj _ _ hA1 hB1 hnum
    · rintro ⟨ha, hb⟩
      unfold ogfEq
      rw [ha, hb]
  · constructor
    · decide
    · decide

end CFin
